import Mathlib

/-!
Verification of the disk-hog-backup snapshot engine.

The Rust sources are shallowly embedded:
* `src/lib.rs` (`BackupManager`): `calculate_checksum`, `find_existing_file`,
  `backup_file`, `backup_directory`, `create_backup`, `manage_space`,
  `validate_backups`, `load_backup_info`, `load_existing_backups`.
* `src/dhcopy/copy_file.rs` / `copy_folder.rs`: `copy_file`, `copy_folder`.
* `src/backup/backup_impl.rs`: the whole-file checksum used by
  `backup_with_options` validation.

The destination filesystem is modelled with explicit inodes so that
`fs::hard_link` aliasing and `filetime::set_file_times` write-through are
faithful to POSIX semantics the code relies on.  Byte contents are `List Nat`;
the SHA-256 digest of the external `sha2` crate is an abstract digest-function
parameter (the spec treats its collision probability as zero, which becomes an
injectivity hypothesis where a theorem needs it).
-/

set_option autoImplicit false

namespace DiskHog

/-- A path component (e.g. a file or directory name), as a list of character
codes. -/
abbrev Name := List Nat

/-- A filesystem path, as a list of components. -/
abbrev Path := List Name

/-- Errors surfaced by the embedded operations: `io` for read failures,
`linkFailed` for `fs::hard_link` failures, and `panicked` for the
`unwrap` panics reachable in `manage_space`. -/
inductive Err where
  | io
  | linkFailed
  | panicked
deriving DecidableEq

deriving instance DecidableEq for Except

/-- One inode of the destination filesystem: the stored bytes, the
modification time (seconds), and whether reading it back fails (permission
loss, corruption of the handle - used by the walk/validator error model). -/
structure Inode where
  content : List Nat
  mtime : Nat
  readBad : Bool
deriving DecidableEq

/-- The destination filesystem: a first-match association of paths to inode
ids, the inode table, and the next fresh inode id.  Hard links are two paths
mapped to the same id. -/
structure FS where
  links : List (Path × Nat)
  inodes : List (Nat × Inode)
  next : Nat
deriving DecidableEq

/-- First-match lookup in the link table. -/
def lookupLinks : List (Path × Nat) → Path → Option Nat
  | [], _ => none
  | (p, i) :: rest, q => if p = q then some i else lookupLinks rest q

/-- First-match lookup in the inode table. -/
def lookupInodes : List (Nat × Inode) → Nat → Option Inode
  | [], _ => none
  | (j, ino) :: rest, i => if j = i then some ino else lookupInodes rest i

/-- The inode id a path resolves to, if any. -/
def FS.linkOf (fs : FS) (q : Path) : Option Nat :=
  lookupLinks fs.links q

/-- The inode stored under an id, if any. -/
def FS.inodeOf (fs : FS) (i : Nat) : Option Inode :=
  lookupInodes fs.inodes i

/-- Resolve a path to its inode (follow the link table, then the inode
table). -/
def FS.readFile (fs : FS) (q : Path) : Option Inode :=
  match fs.linkOf q with
  | some i => fs.inodeOf i
  | none => none

/-- `fs::hard_link(src, dest)`: fails if `dest` already exists (EEXIST) or
`src` does not (ENOENT); otherwise `dest` becomes a second name of `src`'s
inode. -/
def FS.hardLink (fs : FS) (src dest : Path) : Except Err FS :=
  match fs.linkOf dest with
  | some _ => .error .linkFailed
  | none =>
    match fs.linkOf src with
    | some i => .ok { fs with links := (dest, i) :: fs.links }
    | none => .error .linkFailed

/-- Apply a function to the inode stored under id `i`. -/
def FS.setInode (fs : FS) (i : Nat) (g : Inode → Inode) : FS :=
  { fs with inodes := fs.inodes.map fun pr => if pr.1 = i then (pr.1, g pr.2) else pr }

/-- `fs::copy(source, dest)` on the destination side: if `dest` exists, its
inode is truncated and rewritten (write-through to every hard link of it);
otherwise a fresh inode is allocated.  The mtime is left to the
`set_file_times` call that always follows in the code under verification. -/
def FS.copyTo (fs : FS) (content : List Nat) (dest : Path) : FS :=
  match fs.linkOf dest with
  | some i => fs.setInode i fun ino => { ino with content := content }
  | none =>
    { links := (dest, fs.next) :: fs.links
      inodes := (fs.next, ⟨content, 0, false⟩) :: fs.inodes
      next := fs.next + 1 }

/-- `filetime::set_file_times(dest, _, mtime)`: sets the mtime of the inode
`dest` resolves to - every hard link of `dest` observes the change. -/
def FS.setTimes (fs : FS) (q : Path) (t : Nat) : Except Err FS :=
  match fs.linkOf q with
  | some i => .ok (fs.setInode i fun ino => { ino with mtime := t })
  | none => .error .io

/-- Does `p` lead to `q` (is `p` a path-prefix of `q`)? -/
def leadsTo : Path → Path → Bool
  | [], _ => true
  | _ :: _, [] => false
  | a :: as, b :: bs => if a = b then leadsTo as bs else false

/-- `fs::remove_dir_all(p)`: every name at or below `p` is unlinked.  Inodes
stay in the table; an inode with no remaining name is unreachable. -/
def FS.removeTree (fs : FS) (p : Path) : FS :=
  { fs with links := fs.links.filter fun pr => ¬ leadsTo p pr.1 }

/-- Well-formedness of the destination filesystem: every stored link and
inode id is below the fresh-id counter. -/
def FS.wfB (fs : FS) : Bool :=
  fs.links.all (fun pr => pr.2 < fs.next) && fs.inodes.all (fun pr => pr.1 < fs.next)

/-- One source-tree file as the walk of `backup_directory` encounters it:
its path relative to the source root, its bytes, its modification time, and
whether reading it (metadata or open) fails. -/
structure SrcFile where
  rel : Path
  content : List Nat
  mtime : Nat
  readErr : Bool
deriving DecidableEq

/-- `FileInfo` of `src/lib.rs`: destination path, size, modification time
(seconds) and content checksum of one backed-up file. -/
structure FileInfo where
  path : Path
  size : Nat
  modified : Nat
  checksum : Nat
deriving DecidableEq

/-- Calendar timestamp (`chrono::DateTime` fields used by the code). -/
structure DT where
  year : Nat
  month : Nat
  day : Nat
  hour : Nat
  minute : Nat
  second : Nat
deriving DecidableEq

/-- `BackupInfo` of `src/lib.rs`: one completed backup run. -/
structure BackupInfo where
  date : DT
  files : List FileInfo
  total_size : Nat
deriving DecidableEq

/-- `BackupManager` of `src/lib.rs`, with the `max_space` field of its
`BackupConfig`. -/
structure BackupManager where
  max_space : Nat
  backups : List BackupInfo
deriving DecidableEq

/-- Big-endian fixed-width decimal rendering (character codes), as produced
by a zero-padded `chrono` format field of width `w`. -/
def padDigits : Nat → Nat → List Nat
  | 0, _ => []
  | w + 1, n => padDigits w (n / 10) ++ [48 + n % 10]

/-- `now.format(..)` with format string `%Y-%m-%d_%H-%M-%S` (codes 45 and 95
are the dash and the underscore). -/
def DT.format (t : DT) : Name :=
  padDigits 4 t.year ++ [45] ++ padDigits 2 t.month ++ [45] ++ padDigits 2 t.day ++
    [95] ++ padDigits 2 t.hour ++ [45] ++ padDigits 2 t.minute ++ [45] ++ padDigits 2 t.second

/-- The snapshot directory name `create_backup` derives from the capture
time: exactly the formatted timestamp, with no disambiguating suffix. -/
def snapshot_name (now : DT) : Name :=
  now.format

/-- Chronological key of a timestamp (fields packed most-significant
first). -/
def DT.key (t : DT) : Nat :=
  ((((t.year * 100 + t.month) * 100 + t.day) * 100 + t.hour) * 100 + t.minute) * 100 + t.second

/-- Field bounds under which the `%Y-%m-%d_%H-%M-%S` rendering is faithful
(four-digit year, two-digit remaining fields). -/
def DT.validB (t : DT) : Bool :=
  t.year < 10000 && t.month < 100 && t.day < 100 && t.hour < 100 &&
    t.minute < 100 && t.second < 100

/-- The chunked read loop of `BackupManager::calculate_checksum`, fuelled by
the file length: successive `file.read` calls return successive chunks of at
most 8192 bytes until the file is exhausted. -/
def chunksAux : Nat → List Nat → List (List Nat)
  | 0, _ => []
  | _ + 1, [] => []
  | fuel + 1, a :: l => (a :: l).take 8192 :: chunksAux fuel ((a :: l).drop 8192)

/-- The chunks an 8192-byte buffer loop reads from a file. -/
def chunks8192 (l : List Nat) : List (List Nat) :=
  chunksAux l.length l

/-- The sizes of the `file.read` calls `BackupManager::calculate_checksum`
issues on a file with the given bytes. -/
def lib_read_sizes (content : List Nat) : List Nat :=
  (chunks8192 content).map (·.length)

/-- `BackupManager::calculate_checksum` (src/lib.rs): stream the file in
8192-byte chunks through the hasher; the digest of a streamed SHA-256 is a
function of the concatenation of the updates.  `digest` abstracts the
external `sha2::Sha256`. -/
def calculate_checksum (digest : List Nat → Nat) (content : List Nat) : Nat :=
  digest ((chunks8192 content).foldl (fun acc c => acc ++ c) [])

/-- `BackupManager::find_existing_file`: scan every known backup (catalog
order) and return the first recorded path whose checksum matches. -/
def find_existing_file (backups : List BackupInfo) (checksum : Nat) : Option Path :=
  match backups with
  | [] => none
  | b :: rest =>
    match b.files.find? (fun f => f.checksum == checksum) with
    | some f => some f.path
    | none => find_existing_file rest checksum

/-- `BackupManager::backup_file`: read the source metadata, checksum the
source, hard-link from a previous backup when the checksum is already known
(propagating any link failure), otherwise byte-copy; then preserve the
source timestamps onto `dest` and record a `FileInfo`. -/
def backup_file (digest : List Nat → Nat) (backups : List BackupInfo) (src : SrcFile)
    (dest : Path) (fs : FS) : Except Err (FS × FileInfo) :=
  if src.readErr then .error .io else
  let checksum := calculate_checksum digest src.content
  match
    (match find_existing_file backups checksum with
     | some existing => fs.hardLink existing dest
     | none => .ok (fs.copyTo src.content dest)) with
  | .error e => .error e
  | .ok fs1 =>
    match fs1.setTimes dest src.mtime with
    | .error e => .error e
    | .ok fs2 => .ok (fs2, ⟨dest, src.content.length, src.mtime, checksum⟩)

/-- `BackupManager::backup_directory`, flattened over the depth-first file
sequence the recursive `read_dir` walk produces: each file goes to
`snap :: rel` (its relative path inside the fresh snapshot directory), the
records accumulate in traversal order and the sizes are summed.  Any file
error aborts the walk. -/
def backup_directory (digest : List Nat → Nat) (backups : List BackupInfo) (snap : Name)
    (srcs : List SrcFile) (fs : FS) : Except Err (FS × List FileInfo × Nat) :=
  match srcs with
  | [] => .ok (fs, [], 0)
  | s :: rest =>
    match backup_file digest backups s (snap :: s.rel) fs with
    | .error e => .error e
    | .ok (fs1, info) =>
      match backup_directory digest backups snap rest fs1 with
      | .error e => .error e
      | .ok (fs2, infos, total) => .ok (fs2, info :: infos, info.size + total)

/-- The eviction loop of `BackupManager::manage_space`, fuelled by the
catalog length: while the recorded total exceeds the budget and more than
one backup remains, `Vec::pop` removes the LAST catalog entry, the directory
above its first recorded file is deleted (`files.first().unwrap()` panics on
an empty backup) and its size is subtracted. -/
def manage_space_go : Nat → Nat → List BackupInfo → Nat → FS →
    Except Err (List BackupInfo × FS)
  | 0, _, backups, _, fs => .ok (backups, fs)
  | fuel + 1, maxSpace, backups, total, fs =>
    if maxSpace < total ∧ 1 < backups.length then
      match backups.getLast? with
      | none => .ok (backups, fs)
      | some popped =>
        match popped.files.head? with
        | none => .error .panicked
        | some f =>
          manage_space_go fuel maxSpace backups.dropLast (total - popped.total_size)
            (fs.removeTree f.path.dropLast)
    else .ok (backups, fs)

/-- `BackupManager::manage_space`: sum the recorded sizes, then run the
eviction loop. -/
def manage_space (maxSpace : Nat) (backups : List BackupInfo) (fs : FS) :
    Except Err (List BackupInfo × FS) :=
  manage_space_go backups.length maxSpace backups ((backups.map (·.total_size)).sum) fs

/-- `BackupManager::create_backup`: name the snapshot directory from the
capture time, walk the source into it, append the new `BackupInfo` to the
catalog, then enforce the space budget. -/
def create_backup (digest : List Nat → Nat) (mgr : BackupManager) (now : DT)
    (srcs : List SrcFile) (fs : FS) : Except Err (BackupManager × FS × BackupInfo) :=
  let snap := snapshot_name now
  match backup_directory digest mgr.backups snap srcs fs with
  | .error e => .error e
  | .ok (fs1, files, total) =>
    let info : BackupInfo := ⟨now, files, total⟩
    let backups1 := mgr.backups ++ [info]
    match manage_space mgr.max_space backups1 fs1 with
    | .error e => .error e
    | .ok (backups2, fs2) => .ok ({ mgr with backups := backups2 }, fs2, info)

/-- `BackupManager::load_backup_info`: if the `.backup-info` metadata file is
absent return `None`; the serialization branch is a placeholder that also
returns `None` ("implement proper serialization"). -/
def load_backup_info (hasMetadataFile : Bool) : Option BackupInfo :=
  if ¬ hasMetadataFile then none else none

/-- `BackupManager::load_existing_backups`: collect `load_backup_info` over
the immediate subdirectories of the backup root (each represented by whether
it holds a metadata file), then sort by date descending. -/
def load_existing_backups (subdirs : List Bool) : List BackupInfo :=
  (subdirs.filterMap load_backup_info).mergeSort fun a b => b.date.key ≤ a.date.key

/-- `BackupManager::new`: load whatever catalog the backup root yields. -/
def BackupManager.new (maxSpace : Nat) (subdirs : List Bool) : BackupManager :=
  ⟨maxSpace, load_existing_backups subdirs⟩

/-- Issue kinds reported by `validate_backups`. -/
inductive Issue where
  | missing
  | mismatch
deriving DecidableEq

/-- The per-record body of the `validate_backups` loop: a missing path is
reported as `missing` and skipped; otherwise the checksum is recomputed
(read failure aborts, as `calculate_checksum(..)?` does) and a disagreement
is reported as `mismatch`. -/
def fileIssue (digest : List Nat → Nat) (fs : FS) (f : FileInfo) :
    Except Err (Option (Path × Issue)) :=
  match fs.linkOf f.path with
  | none => .ok (some (f.path, .missing))
  | some i =>
    match fs.inodeOf i with
    | none => .error .io
    | some ino =>
      if ino.readBad then .error .io
      else if calculate_checksum digest ino.content ≠ f.checksum then
        .ok (some (f.path, .mismatch))
      else .ok none

/-- The inner loop of `validate_backups` over one backup's records. -/
def validate_files (digest : List Nat → Nat) (fs : FS) (files : List FileInfo) :
    Except Err (List (Path × Issue)) :=
  match files with
  | [] => .ok []
  | f :: rest =>
    match fileIssue digest fs f with
    | .error e => .error e
    | .ok o =>
      match validate_files digest fs rest with
      | .error e => .error e
      | .ok issues => .ok (o.toList ++ issues)

/-- `BackupManager::validate_backups`: collect the issues of every record of
every backup; the report is only returned once every record has been
examined. -/
def validate_backups (digest : List Nat → Nat) (backups : List BackupInfo) (fs : FS) :
    Except Err (List (Path × Issue)) :=
  match backups with
  | [] => .ok []
  | b :: rest =>
    match validate_files digest fs b.files with
    | .error e => .error e
    | .ok issues =>
      match validate_backups digest rest fs with
      | .error e => .error e
      | .ok more => .ok (issues ++ more)

/-- The pure per-record verdict of `validate_backups` on a store whose
existing files are readable: `missing` when the recorded path no longer
resolves, `mismatch` when it resolves but the recomputed checksum disagrees
with the recorded one, and no report otherwise. -/
def issueOf (digest : List Nat → Nat) (fs : FS) (f : FileInfo) : Option (Path × Issue) :=
  match fs.readFile f.path with
  | none => some (f.path, .missing)
  | some ino =>
    if calculate_checksum digest ino.content ≠ f.checksum then some (f.path, .mismatch)
    else none

/-- `copy_file` (src/dhcopy/copy_file.rs): try a hard link from the source
file itself; on success return the source length (`fs::metadata`), on any
link failure fall back to `fs::copy`. -/
def copy_file (fs : FS) (source dest : Path) : Except Err (FS × Nat) :=
  match fs.hardLink source dest with
  | .ok fs1 =>
    match fs1.readFile source with
    | some ino => if ino.readBad then .error .io else .ok (fs1, ino.content.length)
    | none => .error .io
  | .error _ =>
    match fs.readFile source with
    | some ino => if ino.readBad then .error .io else .ok (fs.copyTo ino.content dest, ino.content.length)
    | none => .error .io

/-- `copy_folder` (src/dhcopy/copy_folder.rs), flattened over the
depth-first relative file paths its recursive walk visits: each entry is
delegated to `copy_file`, and the first entry error aborts the whole walk. -/
def copy_folder (srcRoot destRoot : Path) (rels : List Path) (fs : FS) : Except Err FS :=
  match rels with
  | [] => .ok fs
  | r :: rest =>
    match copy_file fs (srcRoot ++ r) (destRoot ++ r) with
    | .error e => .error e
    | .ok (fs1, _) => copy_folder srcRoot destRoot rest fs1

/-- The checksum of `src/backup/backup_impl.rs`: `fs::read` loads the whole
file into memory in one read, and the bytes are hashed with
`std::collections::hash_map::DefaultHasher`, whose `finish` returns a
64-bit value.  `hasher` abstracts the SipHash fold. -/
def backup_impl_calculate_checksum (hasher : List Nat → Nat) (content : List Nat) :
    Fin (2 ^ 64) :=
  ⟨hasher content % 2 ^ 64, Nat.mod_lt _ (by decide)⟩

/-- The sizes of the reads `backup_impl`'s `calculate_checksum` issues: one
single read of the whole file. -/
def backup_impl_read_sizes (content : List Nat) : List Nat :=
  [content.length]

/-- Catalog/filesystem coherence: every recorded file of every known backup
resolves on disk to readable content whose digest is the recorded
checksum. -/
def coherentB (digest : List Nat → Nat) (backups : List BackupInfo) (fs : FS) : Bool :=
  backups.all fun b => b.files.all fun f =>
    match fs.readFile f.path with
    | some ino => digest ino.content == f.checksum && !ino.readBad
    | none => false

/-- A concrete injective digest on byte lists, used by witnesses to
instantiate the abstract (collision-free) hash parameter. -/
def natListKey : List Nat → Nat
  | [] => 0
  | a :: l => Nat.pair a (natListKey l) + 1

/-! ### Checksum streaming lemmas -/

theorem chunksAux_foldl_append (fuel : Nat) :
    ∀ (l acc : List Nat), l.length ≤ fuel →
      (chunksAux fuel l).foldl (fun acc c => acc ++ c) acc = acc ++ l := by
  induction fuel with
  | zero =>
    intro l acc h
    have : l = [] := List.eq_nil_of_length_eq_zero (Nat.le_zero.mp h)
    simp [this, chunksAux]
  | succ fuel ih =>
    intro l acc h
    match l with
    | [] => simp [chunksAux]
    | a :: l' =>
      have hlen : ((a :: l').drop 8192).length ≤ fuel := by
        simp only [List.length_cons] at h
        simp only [List.length_drop, List.length_cons]
        omega
      simp only [chunksAux, List.foldl_cons]
      rw [ih _ _ hlen, List.append_assoc, List.take_append_drop]

theorem calculate_checksum_eq (digest : List Nat → Nat) (content : List Nat) :
    calculate_checksum digest content = digest content := by
  unfold calculate_checksum chunks8192
  rw [chunksAux_foldl_append content.length content [] le_rfl]
  rfl

theorem chunksAux_length_le (fuel : Nat) :
    ∀ (l c : List Nat), c ∈ chunksAux fuel l → c.length ≤ 8192 := by
  induction fuel with
  | zero => intro l c hc; simp [chunksAux] at hc
  | succ fuel ih =>
    intro l c hc
    match l with
    | [] => simp [chunksAux] at hc
    | a :: l' =>
      simp only [chunksAux, List.mem_cons] at hc
      rcases hc with h | h
      · subst h
        simp
      · exact ih _ _ h

theorem lib_read_sizes_bounded (content : List Nat) :
    ∀ s ∈ lib_read_sizes content, s ≤ 8192 := by
  intro s hs
  simp only [lib_read_sizes, chunks8192, List.mem_map] at hs
  obtain ⟨c, hc, rfl⟩ := hs
  exact chunksAux_length_le _ _ _ hc

theorem natListKey_injective : Function.Injective natListKey := by
  intro a
  induction a with
  | nil =>
    intro b h
    cases b with
    | nil => rfl
    | cons x l => simp [natListKey] at h
  | cons x l ih =>
    intro b h
    cases b with
    | nil => simp [natListKey] at h
    | cons y m =>
      simp only [natListKey, Nat.add_right_cancel_iff] at h
      obtain ⟨h1, h2⟩ := Nat.pair_eq_pair.mp h
      rw [h1, ih (by simpa using h2)]

/-- Claim C4, counterexample.  The checksum of `src/backup/backup_impl.rs`
(one of the two functions the claim covers) refutes the claim as stated: its
`fs::read` performs a single read of the whole file, so no constant bounds
its read sizes, and its `DefaultHasher` digest is 64-bit, so for no hasher
can equal digests imply equal contents. -/
theorem C4_counterexample :
    (¬ ∃ c, ∀ content, ∀ s ∈ backup_impl_read_sizes content, s ≤ c) ∧
      ∀ hasher, ¬ Function.Injective (backup_impl_calculate_checksum hasher) := by
  constructor
  · rintro ⟨c, h⟩
    have := h (List.replicate (c + 1) 0) (c + 1) (by simp [backup_impl_read_sizes])
    omega
  · intro hasher hinj
    have hcard : Fintype.card (Fin (2 ^ 64)) < Fintype.card (Fin (2 ^ 64 + 1)) := by
      simp only [Fintype.card_fin]
      omega
    obtain ⟨i, j, hne, heq⟩ :=
      Fintype.exists_ne_map_eq_of_card_lt
        (fun i : Fin (2 ^ 64 + 1) => backup_impl_calculate_checksum hasher [i.val]) hcard
    exact hne (Fin.val_injective (by simpa using List.head_eq_of_cons_eq (hinj heq)))

/-- Claim C4, amended: the dedup checksum `BackupManager::calculate_checksum`
(src/lib.rs) reads the file in chunks of at most 8192 bytes, its digest is a
function of the byte content alone (hence deterministic across repeated
calls), and - with the SHA-256 digest treated as collision-free, as the spec
mandates - two files receive the same digest iff their contents are equal.
The whole-file 64-bit checksum of backup_impl.rs does not satisfy the
claim (see the counterexample). -/
theorem C4_checksum_streams (digest : List Nat → Nat) (hinj : Function.Injective digest)
    (f g : List Nat) :
    (∀ s ∈ lib_read_sizes f, s ≤ 8192) ∧
      calculate_checksum digest f = digest f ∧
      (calculate_checksum digest f = calculate_checksum digest g ↔ f = g) := by
  refine ⟨lib_read_sizes_bounded f, calculate_checksum_eq digest f, ?_⟩
  rw [calculate_checksum_eq, calculate_checksum_eq]
  exact ⟨fun h => hinj h, fun h => by rw [h]⟩

/-- Claim C4, witness: the amended theorem applied to the injective digest
`natListKey` and two concrete byte lists. -/
theorem C4_witness :
    Function.Injective natListKey ∧
      ((∀ s ∈ lib_read_sizes [1, 2], s ≤ 8192) ∧
        calculate_checksum natListKey [1, 2] = natListKey [1, 2] ∧
        (calculate_checksum natListKey [1, 2] = calculate_checksum natListKey [3] ↔
          ([1, 2] : List Nat) = [3])) :=
  ⟨natListKey_injective, C4_checksum_streams natListKey natListKey_injective [1, 2] [3]⟩

/-! ### Catalog loading (claim C5) -/

/-- Claim C5: `load_backup_info` returns `None` for every subdirectory, so a
fresh `BackupManager` starts with an empty catalog: no checksum lookup of a
new run can hit a previous process's snapshot, and `manage_space` accounts a
recorded total of zero, leaving the filesystem untouched. -/
theorem C5_no_catalog_reload (maxSpace : Nat) (subdirs : List Bool) :
    (BackupManager.new maxSpace subdirs).backups = [] ∧
      (∀ checksum, find_existing_file (BackupManager.new maxSpace subdirs).backups checksum
        = none) ∧
      ∀ fs, manage_space maxSpace (BackupManager.new maxSpace subdirs).backups fs
        = .ok ([], fs) := by
  have hload : load_existing_backups subdirs = [] := by
    have : subdirs.filterMap load_backup_info = [] := by
      simp [List.filterMap_eq_nil_iff, load_backup_info]
    simp [load_existing_backups, this]
  have hnew : (BackupManager.new maxSpace subdirs).backups = [] := by
    simp [BackupManager.new, hload]
  refine ⟨hnew, ?_, ?_⟩
  · intro checksum
    rw [hnew]
    rfl
  · intro fs
    rw [hnew]
    rfl

/-! ### Snapshot naming (claim C7) -/

theorem lex_cons_cons_iff {a b : Nat} {l1 l2 : List Nat} :
    List.Lex (· < ·) (a :: l1) (b :: l2) ↔ a < b ∨ (a = b ∧ List.Lex (· < ·) l1 l2) := by
  constructor
  · intro h
    cases h with
    | cons h => exact Or.inr ⟨rfl, h⟩
    | rel h => exact Or.inl h
  · rintro (h | ⟨rfl, h⟩)
    · exact List.Lex.rel h
    · exact List.Lex.cons h

theorem lex_append_iff : ∀ {a a' : List Nat} (b c : List Nat), a.length = a'.length →
    (List.Lex (· < ·) (a ++ b) (a' ++ c) ↔
      List.Lex (· < ·) a a' ∨ (a = a' ∧ List.Lex (· < ·) b c)) := by
  intro a
  induction a with
  | nil =>
    intro a' b c hlen
    have : a' = [] := List.eq_nil_of_length_eq_zero hlen.symm
    subst this
    simp only [List.nil_append]
    constructor
    · intro h
      exact Or.inr ⟨trivial, h⟩
    · rintro (h | ⟨-, h⟩)
      · exact absurd h (List.Lex.not_nil_right _ _)
      · exact h
  | cons x a ih =>
    intro a' b c hlen
    match a' with
    | [] => simp at hlen
    | y :: a' =>
      simp only [List.length_cons, Nat.add_right_cancel_iff] at hlen
      simp only [List.cons_append, lex_cons_cons_iff, ih b c hlen, List.cons.injEq]
      constructor
      · rintro (h | ⟨rfl, h | ⟨rfl, h⟩⟩)
        · exact Or.inl (Or.inl h)
        · exact Or.inl (Or.inr ⟨rfl, h⟩)
        · exact Or.inr ⟨⟨rfl, rfl⟩, h⟩
      · rintro ((h | ⟨rfl, h⟩) | ⟨⟨rfl, rfl⟩, h⟩)
        · exact Or.inl h
        · exact Or.inr ⟨rfl, Or.inl h⟩
        · exact Or.inr ⟨rfl, Or.inr ⟨rfl, h⟩⟩

theorem eq_append_iff {a a' : List Nat} (b c : List Nat) (hlen : a.length = a'.length) :
    a ++ b = a' ++ c ↔ a = a' ∧ b = c := by
  constructor
  · intro h
    exact List.append_inj h hlen
  · rintro ⟨rfl, rfl⟩
    rfl

theorem padDigits_length (w n : Nat) : (padDigits w n).length = w := by
  induction w generalizing n with
  | zero => rfl
  | succ w ih => simp [padDigits, ih]

theorem padDigits_eq_iff : ∀ (w n m : Nat), n < 10 ^ w → m < 10 ^ w →
    (padDigits w n = padDigits w m ↔ n = m) := by
  intro w
  induction w with
  | zero =>
    intro n m hn hm
    simp only [Nat.pow_zero, Nat.lt_one_iff] at hn hm
    subst hn; subst hm
    simp [padDigits]
  | succ w ih =>
    intro n m hn hm
    have hn' : n / 10 < 10 ^ w := by
      rw [Nat.div_lt_iff_lt_mul (by omega)]
      calc n < 10 ^ (w + 1) := hn
        _ = 10 ^ w * 10 := by rw [Nat.pow_succ]
    have hm' : m / 10 < 10 ^ w := by
      rw [Nat.div_lt_iff_lt_mul (by omega)]
      calc m < 10 ^ (w + 1) := hm
        _ = 10 ^ w * 10 := by rw [Nat.pow_succ]
    simp only [padDigits]
    rw [eq_append_iff _ _ (by rw [padDigits_length, padDigits_length]), ih _ _ hn' hm']
    constructor
    · rintro ⟨h1, h2⟩
      simp only [List.cons.injEq, and_true] at h2
      omega
    · rintro rfl
      exact ⟨rfl, rfl⟩

theorem padDigits_lt_iff : ∀ (w n m : Nat), n < 10 ^ w → m < 10 ^ w →
    (List.Lex (· < ·) (padDigits w n) (padDigits w m) ↔ n < m) := by
  intro w
  induction w with
  | zero =>
    intro n m hn hm
    simp only [Nat.pow_zero, Nat.lt_one_iff] at hn hm
    subst hn; subst hm
    simp only [padDigits]
    exact ⟨fun h => absurd h (List.Lex.not_nil_right _ _), fun h => absurd h (by omega)⟩
  | succ w ih =>
    intro n m hn hm
    have hn' : n / 10 < 10 ^ w := by
      rw [Nat.div_lt_iff_lt_mul (by omega)]
      calc n < 10 ^ (w + 1) := hn
        _ = 10 ^ w * 10 := by rw [Nat.pow_succ]
    have hm' : m / 10 < 10 ^ w := by
      rw [Nat.div_lt_iff_lt_mul (by omega)]
      calc m < 10 ^ (w + 1) := hm
        _ = 10 ^ w * 10 := by rw [Nat.pow_succ]
    simp only [padDigits]
    rw [lex_append_iff _ _ (by rw [padDigits_length, padDigits_length]),
      ih _ _ hn' hm', padDigits_eq_iff w _ _ hn' hm', List.Lex.singleton_iff]
    have hdm : n % 10 < 10 := Nat.mod_lt _ (by omega)
    have hdn : m % 10 < 10 := Nat.mod_lt _ (by omega)
    omega
theorem lex_field_iff (w n m sep : Nat) (b c : List Nat) (hn : n < 10 ^ w)
    (hm : m < 10 ^ w) :
    List.Lex (· < ·) (padDigits w n ++ sep :: b) (padDigits w m ++ sep :: c) ↔
      n < m ∨ (n = m ∧ List.Lex (· < ·) b c) := by
  rw [lex_append_iff _ _ (by rw [padDigits_length, padDigits_length]),
    padDigits_lt_iff w n m hn hm, padDigits_eq_iff w n m hn hm, lex_cons_cons_iff]
  simp [Nat.lt_irrefl]

theorem eq_field_iff (w n m sep : Nat) (b c : List Nat) (hn : n < 10 ^ w)
    (hm : m < 10 ^ w) :
    padDigits w n ++ sep :: b = padDigits w m ++ sep :: c ↔ n = m ∧ b = c := by
  rw [eq_append_iff _ _ (by rw [padDigits_length, padDigits_length]),
    padDigits_eq_iff w n m hn hm]
  simp

theorem format_normalized (t : DT) :
    t.format = padDigits 4 t.year ++ 45 :: (padDigits 2 t.month ++ 45 ::
      (padDigits 2 t.day ++ 95 :: (padDigits 2 t.hour ++ 45 ::
        (padDigits 2 t.minute ++ 45 :: padDigits 2 t.second)))) := by
  simp [DT.format, List.append_assoc]

theorem validB_bounds (t : DT) (h : t.validB = true) :
    t.year < 10000 ∧ t.month < 100 ∧ t.day < 100 ∧ t.hour < 100 ∧
      t.minute < 100 ∧ t.second < 100 := by
  simpa [DT.validB, and_assoc] using h

/-- Claim C7, amended: `create_backup` derives the snapshot directory name
purely from the zero-padded capture time, so names sort lexically exactly as
the capture times do and equal capture times give equal (not distinct)
names; the disambiguating suffix of the claim does not exist. -/
theorem C7_names_sort_chronologically (t1 t2 : DT) (h1 : t1.validB = true)
    (h2 : t2.validB = true) :
    (List.Lex (· < ·) (snapshot_name t1) (snapshot_name t2) ↔ t1.key < t2.key) ∧
      (snapshot_name t1 = snapshot_name t2 ↔ t1.key = t2.key) := by
  obtain ⟨hy1, hmo1, hd1, hh1, hmi1, hs1⟩ := validB_bounds t1 h1
  obtain ⟨hy2, hmo2, hd2, hh2, hmi2, hs2⟩ := validB_bounds t2 h2
  have e4 : (10000 : Nat) = 10 ^ 4 := by norm_num
  have e2 : (100 : Nat) = 10 ^ 2 := by norm_num
  rw [e4] at hy1 hy2
  rw [e2] at hmo1 hmo2 hd1 hd2 hh1 hh2 hmi1 hmi2 hs1 hs2
  unfold snapshot_name
  rw [format_normalized t1, format_normalized t2]
  constructor
  · rw [lex_field_iff 4 _ _ _ _ _ hy1 hy2, lex_field_iff 2 _ _ _ _ _ hmo1 hmo2,
      lex_field_iff 2 _ _ _ _ _ hd1 hd2, lex_field_iff 2 _ _ _ _ _ hh1 hh2,
      lex_field_iff 2 _ _ _ _ _ hmi1 hmi2, padDigits_lt_iff 2 _ _ hs1 hs2]
    simp only [DT.key]
    constructor
    · intro h
      omega
    · intro h
      omega
  · rw [eq_field_iff 4 _ _ _ _ _ hy1 hy2, eq_field_iff 2 _ _ _ _ _ hmo1 hmo2,
      eq_field_iff 2 _ _ _ _ _ hd1 hd2, eq_field_iff 2 _ _ _ _ _ hh1 hh2,
      eq_field_iff 2 _ _ _ _ _ hmi1 hmi2, padDigits_eq_iff 2 _ _ hs1 hs2]
    simp only [DT.key]
    constructor
    · intro h
      omega
    · intro h
      omega

/-- Claim C7, witness: the amended theorem at two concrete timestamps one
second apart. -/
theorem C7_witness :
    (List.Lex (· < ·) (snapshot_name ⟨2025, 10, 12, 1, 2, 3⟩)
        (snapshot_name ⟨2025, 10, 12, 1, 2, 4⟩) ↔
      DT.key ⟨2025, 10, 12, 1, 2, 3⟩ < DT.key ⟨2025, 10, 12, 1, 2, 4⟩) ∧
      (snapshot_name ⟨2025, 10, 12, 1, 2, 3⟩ = snapshot_name ⟨2025, 10, 12, 1, 2, 4⟩ ↔
        DT.key ⟨2025, 10, 12, 1, 2, 3⟩ = DT.key ⟨2025, 10, 12, 1, 2, 4⟩) :=
  C7_names_sort_chronologically ⟨2025, 10, 12, 1, 2, 3⟩ ⟨2025, 10, 12, 1, 2, 4⟩
    (by decide) (by decide)

/-- Claim C7, counterexample: two snapshot creations requested within the
same clock second receive the SAME directory name (the format has no
disambiguating suffix), and the second `create_backup` run against the same
backup root then fails with a hard-link EEXIST error instead of creating a
distinct snapshot. -/
theorem C7_counterexample :
    snapshot_name ⟨2025, 10, 12, 1, 2, 3⟩ = snapshot_name ⟨2025, 10, 12, 1, 2, 3⟩ ∧
      (match create_backup natListKey ⟨100, []⟩ ⟨2025, 10, 12, 1, 2, 3⟩
          [⟨[[97]], [7], 5, false⟩] ⟨[], [], 0⟩ with
        | .ok (mgr1, fs1, _) =>
          create_backup natListKey mgr1 ⟨2025, 10, 12, 1, 2, 3⟩ [⟨[[97]], [7], 5, false⟩] fs1
        | .error e => .error e) = .error .linkFailed := by
  constructor
  · rfl
  · decide

/-! ### Integrity validation (claim C10) -/

theorem fileIssue_eq_issueOf (digest : List Nat → Nat) (fs : FS) (f : FileInfo)
    (hread : ∀ i, fs.linkOf f.path = some i →
      ∃ ino, fs.inodeOf i = some ino ∧ ino.readBad = false) :
    fileIssue digest fs f = .ok (issueOf digest fs f) := by
  cases hl : fs.linkOf f.path with
  | none => simp [fileIssue, issueOf, FS.readFile, hl]
  | some i =>
    obtain ⟨ino, hino, hbad⟩ := hread i hl
    by_cases hc : calculate_checksum digest ino.content ≠ f.checksum
    · simp [fileIssue, issueOf, FS.readFile, hl, hino, hbad, hc]
    · simp [fileIssue, issueOf, FS.readFile, hl, hino, hbad, hc]

theorem validate_files_ok (digest : List Nat → Nat) (fs : FS) (files : List FileInfo)
    (hread : ∀ f ∈ files, ∀ i, fs.linkOf f.path = some i →
      ∃ ino, fs.inodeOf i = some ino ∧ ino.readBad = false) :
    validate_files digest fs files = .ok (files.filterMap (issueOf digest fs)) := by
  induction files with
  | nil => rfl
  | cons f rest ih =>
    have hf := fileIssue_eq_issueOf digest fs f (hread f (List.mem_cons_self f rest))
    have hr := ih fun g hg => hread g (List.mem_cons_of_mem f hg)
    unfold validate_files
    rw [hf, hr]
    cases h : issueOf digest fs f <;> simp [List.filterMap_cons, h]

theorem validate_backups_ok (digest : List Nat → Nat) (fs : FS) (backups : List BackupInfo)
    (hread : ∀ b ∈ backups, ∀ f ∈ b.files, ∀ i, fs.linkOf f.path = some i →
      ∃ ino, fs.inodeOf i = some ino ∧ ino.readBad = false) :
    validate_backups digest backups fs =
      .ok (((backups.map (·.files)).flatten).filterMap (issueOf digest fs)) := by
  induction backups with
  | nil => rfl
  | cons b rest ih =>
    have hb := validate_files_ok digest fs b.files (hread b (List.mem_cons_self b rest))
    have hr := ih fun b' hb' => hread b' (List.mem_cons_of_mem b hb')
    unfold validate_backups
    rw [hb, hr]
    simp [List.filterMap_append]

theorem issueOf_path (digest : List Nat → Nat) (fs : FS) (f : FileInfo)
    (pr : Path × Issue) (h : issueOf digest fs f = some pr) : pr.1 = f.path := by
  cases hl : fs.readFile f.path with
  | none =>
    simp only [issueOf, hl, Option.some.injEq] at h
    rw [← h]
  | some ino =>
    by_cases hc : calculate_checksum digest ino.content ≠ f.checksum
    · simp only [issueOf, hl, if_pos hc, Option.some.injEq] at h
      rw [← h]
    · simp only [issueOf, hl, if_neg hc] at h
      cases h

/-- Claim C10: on a backup root whose still-existing recorded files are
readable and whose recorded destination paths are distinct, `validate_backups`
returns a complete report: every record whose stored path no longer resolves
is reported as `missing`, every record whose path resolves to content with a
different recomputed checksum is reported as `mismatch`, records whose
checksum matches produce no report, and the scan covers every record of
every backup rather than stopping at the first issue. -/
theorem C10_validator_complete (digest : List Nat → Nat) (fs : FS)
    (backups : List BackupInfo)
    (hread : ∀ b ∈ backups, ∀ f ∈ b.files, ∀ i, fs.linkOf f.path = some i →
      ∃ ino, fs.inodeOf i = some ino ∧ ino.readBad = false)
    (hnodup : (((backups.map (·.files)).flatten).map (·.path)).Nodup) :
    ∃ issues, validate_backups digest backups fs = .ok issues ∧
      ∀ b ∈ backups, ∀ f ∈ b.files,
        (fs.readFile f.path = none → (f.path, Issue.missing) ∈ issues) ∧
        (∀ ino, fs.readFile f.path = some ino →
          calculate_checksum digest ino.content ≠ f.checksum →
            (f.path, Issue.mismatch) ∈ issues) ∧
        (∀ ino, fs.readFile f.path = some ino →
          calculate_checksum digest ino.content = f.checksum →
            ∀ iss, (f.path, iss) ∉ issues) := by
  refine ⟨_, validate_backups_ok digest fs backups hread, ?_⟩
  intro b hb f hf
  have hfj : f ∈ (backups.map (·.files)).flatten := by
    rw [List.mem_flatten]
    exact ⟨b.files, List.mem_map_of_mem _ hb, hf⟩
  refine ⟨?_, ?_, ?_⟩
  · intro hmiss
    exact List.mem_filterMap.mpr ⟨f, hfj, by simp [issueOf, hmiss]⟩
  · intro ino hino hne
    exact List.mem_filterMap.mpr ⟨f, hfj, by simp [issueOf, hino, hne]⟩
  · intro ino hino heq iss hmem
    obtain ⟨g, hgj, hg⟩ := List.mem_filterMap.mp hmem
    have hpath : g.path = f.path := (issueOf_path digest fs g _ hg).symm
    have hgf : g = f := List.inj_on_of_nodup_map hnodup hgj hfj hpath
    subst hgf
    simp [issueOf, hino, heq] at hg

/-- Claim C10, witness: a concrete catalog with one missing record, one
corrupted record and one intact record; the theorem reports exactly the two
problems. -/
theorem C10_witness :
    ∃ issues,
      validate_backups natListKey
        [⟨⟨2025, 1, 1, 0, 0, 0⟩,
          [⟨[[1]], 1, 0, natListKey [7]⟩, ⟨[[2]], 1, 0, natListKey [8]⟩,
            ⟨[[3]], 1, 0, natListKey [9]⟩], 3⟩]
        ⟨[([[2]], 0), ([[3]], 1)], [(0, ⟨[6], 0, false⟩), (1, ⟨[9], 0, false⟩)], 2⟩
        = .ok issues ∧
      ∀ b ∈ [(⟨⟨2025, 1, 1, 0, 0, 0⟩,
          [⟨[[1]], 1, 0, natListKey [7]⟩, ⟨[[2]], 1, 0, natListKey [8]⟩,
            ⟨[[3]], 1, 0, natListKey [9]⟩], 3⟩ : BackupInfo)], ∀ f ∈ b.files,
        ((FS.readFile ⟨[([[2]], 0), ([[3]], 1)], [(0, ⟨[6], 0, false⟩), (1, ⟨[9], 0, false⟩)], 2⟩
            f.path = none → (f.path, Issue.missing) ∈ issues) ∧
        (∀ ino, FS.readFile ⟨[([[2]], 0), ([[3]], 1)], [(0, ⟨[6], 0, false⟩), (1, ⟨[9], 0, false⟩)], 2⟩
            f.path = some ino →
          calculate_checksum natListKey ino.content ≠ f.checksum →
            (f.path, Issue.mismatch) ∈ issues) ∧
        (∀ ino, FS.readFile ⟨[([[2]], 0), ([[3]], 1)], [(0, ⟨[6], 0, false⟩), (1, ⟨[9], 0, false⟩)], 2⟩
            f.path = some ino →
          calculate_checksum natListKey ino.content = f.checksum →
            ∀ iss, (f.path, iss) ∉ issues)) :=
  C10_validator_complete natListKey
    ⟨[([[2]], 0), ([[3]], 1)], [(0, ⟨[6], 0, false⟩), (1, ⟨[9], 0, false⟩)], 2⟩
    [⟨⟨2025, 1, 1, 0, 0, 0⟩,
      [⟨[[1]], 1, 0, natListKey [7]⟩, ⟨[[2]], 1, 0, natListKey [8]⟩,
        ⟨[[3]], 1, 0, natListKey [9]⟩], 3⟩]
    (by decide) (by decide)

/-! ### Filesystem infrastructure lemmas -/

theorem lookupLinks_cons (p : Path) (i : Nat) (rest : List (Path × Nat)) (q : Path) :
    lookupLinks ((p, i) :: rest) q = if p = q then some i else lookupLinks rest q := rfl

theorem lookupInodes_cons (a : Nat) (b : Inode) (rest : List (Nat × Inode)) (q : Nat) :
    lookupInodes ((a, b) :: rest) q = if a = q then some b else lookupInodes rest q := rfl

theorem lookupLinks_mem {l : List (Path × Nat)} {q : Path} {i : Nat}
    (h : lookupLinks l q = some i) : (q, i) ∈ l := by
  induction l with
  | nil => cases h
  | cons pr rest ih =>
    obtain ⟨p, j⟩ := pr
    rw [lookupLinks_cons] at h
    by_cases hp : p = q
    · rw [if_pos hp] at h
      obtain rfl := Option.some.inj h
      subst hp
      exact List.mem_cons_self _ _
    · rw [if_neg hp] at h
      exact List.mem_cons_of_mem _ (ih h)

theorem lookupInodes_mem {l : List (Nat × Inode)} {i : Nat} {ino : Inode}
    (h : lookupInodes l i = some ino) : (i, ino) ∈ l := by
  induction l with
  | nil => cases h
  | cons pr rest ih =>
    obtain ⟨j, v⟩ := pr
    rw [lookupInodes_cons] at h
    by_cases hj : j = i
    · rw [if_pos hj] at h
      obtain rfl := Option.some.inj h
      subst hj
      exact List.mem_cons_self _ _
    · rw [if_neg hj] at h
      exact List.mem_cons_of_mem _ (ih h)

theorem wfB_iff (fs : FS) :
    fs.wfB = true ↔
      (∀ pr ∈ fs.links, pr.2 < fs.next) ∧ ∀ pr ∈ fs.inodes, pr.1 < fs.next := by
  simp [FS.wfB, List.all_eq_true]

theorem linkOf_cons (links : List (Path × Nat)) (inodes : List (Nat × Inode)) (next : Nat)
    (p : Path) (i : Nat) (q : Path) :
    FS.linkOf ⟨(p, i) :: links, inodes, next⟩ q =
      if p = q then some i else FS.linkOf ⟨links, inodes, next⟩ q := rfl

theorem setInode_linkOf (fs : FS) (i : Nat) (g : Inode → Inode) (q : Path) :
    (fs.setInode i g).linkOf q = fs.linkOf q := rfl

theorem lookupInodes_map_set (l : List (Nat × Inode)) (i : Nat) (g : Inode → Inode) (j : Nat) :
    lookupInodes (l.map fun pr => if pr.1 = i then (pr.1, g pr.2) else pr) j =
      if j = i then (lookupInodes l i).map g else lookupInodes l j := by
  induction l with
  | nil => by_cases hj : j = i <;> simp [lookupInodes, hj]
  | cons pr rest ih =>
    obtain ⟨k, v⟩ := pr
    rw [List.map_cons]
    by_cases hki : k = i
    · rw [show (if (k, v).1 = i then ((k, v).1, g (k, v).2) else (k, v)) = (k, g v) from by
          simp [hki]]
      by_cases hkj : k = j
      · have hji : j = i := by omega
        rw [lookupInodes_cons, if_pos hkj, if_pos hji, lookupInodes_cons, if_pos hki]
        simp
      · have hji : ¬ j = i := by omega
        rw [lookupInodes_cons, if_neg hkj, ih, if_neg hji, if_neg hji, lookupInodes_cons,
          if_neg hkj]
    · rw [show (if (k, v).1 = i then ((k, v).1, g (k, v).2) else (k, v)) = (k, v) from by
          simp [hki]]
      by_cases hkj : k = j
      · have hji : ¬ j = i := by omega
        rw [lookupInodes_cons, if_pos hkj, if_neg hji, lookupInodes_cons, if_pos hkj]
      · rw [lookupInodes_cons, if_neg hkj, ih]
        by_cases hji : j = i
        · rw [if_pos hji, if_pos hji, lookupInodes_cons, if_neg hki]
        · rw [if_neg hji, if_neg hji, lookupInodes_cons, if_neg hkj]

theorem setInode_inodeOf (fs : FS) (i : Nat) (g : Inode → Inode) (j : Nat) :
    (fs.setInode i g).inodeOf j =
      if j = i then (fs.inodeOf i).map g else fs.inodeOf j :=
  lookupInodes_map_set fs.inodes i g j

theorem setInode_next (fs : FS) (i : Nat) (g : Inode → Inode) :
    (fs.setInode i g).next = fs.next := rfl

theorem setInode_wf (fs : FS) (i : Nat) (g : Inode → Inode) (hwf : fs.wfB = true) :
    (fs.setInode i g).wfB = true := by
  rw [wfB_iff] at hwf ⊢
  refine ⟨hwf.1, ?_⟩
  intro pr hpr
  simp only [FS.setInode, List.mem_map] at hpr
  obtain ⟨pr0, hpr0, heq⟩ := hpr
  have := hwf.2 pr0 hpr0
  by_cases h0 : pr0.1 = i
  · rw [if_pos h0] at heq
    rw [← heq]
    simpa [h0] using this
  · rw [if_neg h0] at heq
    rw [← heq]
    exact this

theorem readFile_some {fs : FS} {q : Path} {ino : Inode} (h : fs.readFile q = some ino) :
    ∃ i, fs.linkOf q = some i ∧ fs.inodeOf i = some ino := by
  unfold FS.readFile at h
  cases hl : fs.linkOf q with
  | none => rw [hl] at h; cases h
  | some i => rw [hl] at h; exact ⟨i, rfl, h⟩

theorem hardLink_ok {fs fs' : FS} {src dest : Path}
    (h : fs.hardLink src dest = .ok fs') :
    ∃ i, fs.linkOf dest = none ∧ fs.linkOf src = some i ∧
      fs' = ⟨(dest, i) :: fs.links, fs.inodes, fs.next⟩ := by
  unfold FS.hardLink at h
  cases hd : fs.linkOf dest with
  | some _ => rw [hd] at h; cases h
  | none =>
    rw [hd] at h
    cases hs : fs.linkOf src with
    | none => rw [hs] at h; cases h
    | some i =>
      rw [hs] at h
      exact ⟨i, rfl, rfl, (Except.ok.inj h).symm⟩

theorem copyTo_fresh {fs : FS} {dest : Path} (content : List Nat)
    (h : fs.linkOf dest = none) :
    fs.copyTo content dest =
      ⟨(dest, fs.next) :: fs.links, (fs.next, ⟨content, 0, false⟩) :: fs.inodes,
        fs.next + 1⟩ := by
  unfold FS.copyTo
  rw [h]

/-- The success behaviour of one `copy_file` placement at a fresh
destination: the filesystem stays well-formed, no other path changes, every
previously readable file stays readable and unchanged, and the destination
captures the source's content (by link or by copy). -/
theorem readFile_none {fs : FS} {q : Path} (h : fs.linkOf q = none) :
    fs.readFile q = none := by
  unfold FS.readFile
  rw [h]

theorem readFile_eq_inodeOf {fs : FS} {q : Path} {i : Nat} (h : fs.linkOf q = some i) :
    fs.readFile q = fs.inodeOf i := by
  unfold FS.readFile
  rw [h]

/-- The success behaviour of one `copy_file` placement at a fresh
destination: the filesystem stays well-formed, no other path changes, every
previously readable file stays readable and unchanged, and the destination
captures the source's content (by link or by copy). -/
theorem copy_file_spec {fs fs' : FS} {source dest : Path} {n : Nat}
    (hwf : fs.wfB = true) (hfresh : fs.linkOf dest = none)
    (hok : copy_file fs source dest = .ok (fs', n)) :
    fs'.wfB = true ∧ fs.next ≤ fs'.next ∧
      (∀ q, q ≠ dest → fs'.linkOf q = fs.linkOf q) ∧
      (∀ q, q ≠ dest → fs'.readFile q = fs.readFile q) ∧
      ∃ ino, fs.readFile source = some ino ∧ ino.readBad = false ∧
        n = ino.content.length ∧
        ∃ ino', fs'.readFile dest = some ino' ∧ ino'.content = ino.content := by
  unfold copy_file at hok
  cases hL : fs.hardLink source dest with
  | ok fs1 =>
    rw [hL] at hok
    dsimp only at hok
    obtain ⟨i, -, hsrc, rfl⟩ := hardLink_ok hL
    have hsd : source ≠ dest := fun h => by rw [h, hfresh] at hsrc; cases hsrc
    have hl1 : ∀ q, FS.linkOf ⟨(dest, i) :: fs.links, fs.inodes, fs.next⟩ q =
        if dest = q then some i else fs.linkOf q := fun q => linkOf_cons _ _ _ _ _ _
    have hXsrc : FS.linkOf ⟨(dest, i) :: fs.links, fs.inodes, fs.next⟩ source = some i := by
      rw [hl1 source, if_neg (fun h => hsd h.symm)]
      exact hsrc
    have hrs1 : FS.readFile ⟨(dest, i) :: fs.links, fs.inodes, fs.next⟩ source =
        fs.inodeOf i := readFile_eq_inodeOf hXsrc
    rw [hrs1] at hok
    cases hino : fs.inodeOf i with
    | none =>
      rw [hino] at hok
      simp at hok
    | some ino =>
      rw [hino] at hok
      dsimp only at hok
      cases hbad : ino.readBad with
      | true => rw [hbad] at hok; simp at hok
      | false =>
        rw [hbad] at hok
        simp only [Bool.false_eq_true, if_false, Except.ok.injEq, Prod.mk.injEq] at hok
        obtain ⟨rfl, rfl⟩ := hok
        have hiwf : i < fs.next := by
          have := (wfB_iff fs).mp hwf
          exact this.1 (source, i) (lookupLinks_mem hsrc)
        refine ⟨?_, le_rfl, ?_, ?_, ?_⟩
        · rw [wfB_iff]
          dsimp only
          rw [wfB_iff] at hwf
          refine ⟨?_, hwf.2⟩
          intro pr hpr
          rcases List.mem_cons.mp hpr with h | h
          · rw [h]; exact hiwf
          · exact hwf.1 pr h
        · intro q hq
          rw [hl1 q, if_neg (fun h => hq h.symm)]
        · intro q hq
          have hXq : FS.linkOf ⟨(dest, i) :: fs.links, fs.inodes, fs.next⟩ q =
              fs.linkOf q := by
            rw [hl1 q, if_neg (fun h => hq h.symm)]
          cases hql : fs.linkOf q with
          | none =>
            rw [readFile_none (hXq.trans hql), readFile_none hql]
          | some i0 =>
            rw [readFile_eq_inodeOf (hXq.trans hql), readFile_eq_inodeOf hql]
            rfl
        · refine ⟨ino, ?_, hbad, rfl, ino, ?_, rfl⟩
          · rw [readFile_eq_inodeOf hsrc]
            exact hino
          · have hXd : FS.linkOf ⟨(dest, i) :: fs.links, fs.inodes, fs.next⟩ dest =
                some i := by
              rw [hl1 dest, if_pos rfl]
            rw [readFile_eq_inodeOf hXd]
            exact hino
  | error e =>
    rw [hL] at hok
    dsimp only at hok
    cases hrs : fs.readFile source with
    | none => rw [hrs] at hok; simp at hok
    | some ino =>
      rw [hrs] at hok
      dsimp only at hok
      cases hbad : ino.readBad with
      | true => rw [hbad] at hok; simp at hok
      | false =>
        rw [hbad] at hok
        simp only [Bool.false_eq_true, if_false, Except.ok.injEq, Prod.mk.injEq] at hok
        obtain ⟨rfl, rfl⟩ := hok
        rw [copyTo_fresh ino.content hfresh]
        have hl1 : ∀ q, FS.linkOf ⟨(dest, fs.next) :: fs.links,
            (fs.next, ⟨ino.content, 0, false⟩) :: fs.inodes, fs.next + 1⟩ q =
            if dest = q then some fs.next else fs.linkOf q :=
          fun q => linkOf_cons _ _ _ _ _ _
        have hi1 : ∀ j, FS.inodeOf ⟨(dest, fs.next) :: fs.links,
            (fs.next, ⟨ino.content, 0, false⟩) :: fs.inodes, fs.next + 1⟩ j =
            if fs.next = j then some ⟨ino.content, 0, false⟩ else fs.inodeOf j :=
          fun j => lookupInodes_cons _ _ _ _
        refine ⟨?_, Nat.le_succ _, ?_, ?_, ?_⟩
        · rw [wfB_iff]
          dsimp only
          rw [wfB_iff] at hwf
          constructor
          · intro pr hpr
            rcases List.mem_cons.mp hpr with h | h
            · rw [h]; exact Nat.lt_succ_self _
            · have := hwf.1 pr h; omega
          · intro pr hpr
            rcases List.mem_cons.mp hpr with h | h
            · rw [h]; exact Nat.lt_succ_self _
            · have := hwf.2 pr h; omega
        · intro q hq
          rw [hl1 q, if_neg (fun h => hq h.symm)]
        · intro q hq
          have hXq : FS.linkOf ⟨(dest, fs.next) :: fs.links,
              (fs.next, ⟨ino.content, 0, false⟩) :: fs.inodes, fs.next + 1⟩ q =
              fs.linkOf q := by
            rw [hl1 q, if_neg (fun h => hq h.symm)]
          cases hql : fs.linkOf q with
          | none =>
            rw [readFile_none (hXq.trans hql), readFile_none hql]
          | some i0 =>
            have hi0 : i0 < fs.next := by
              have := (wfB_iff fs).mp hwf
              exact this.1 (q, i0) (lookupLinks_mem hql)
            rw [readFile_eq_inodeOf (hXq.trans hql), readFile_eq_inodeOf hql, hi1 i0,
              if_neg (by omega)]
        · refine ⟨ino, rfl, hbad, rfl, ⟨ino.content, 0, false⟩, ?_, rfl⟩
          have hXd : FS.linkOf ⟨(dest, fs.next) :: fs.links,
              (fs.next, ⟨ino.content, 0, false⟩) :: fs.inodes, fs.next + 1⟩ dest =
              some fs.next := by
            rw [hl1 dest, if_pos rfl]
          rw [readFile_eq_inodeOf hXd, hi1 fs.next, if_pos rfl]

/-- Success of the whole `copy_folder` walk: every previously readable file
is untouched, and every visited entry was readable and is captured at its
destination path with identical content. -/
theorem copy_folder_spec {srcRoot destRoot : Path} {rels : List Path} {fs fs' : FS}
    (hwf : fs.wfB = true) (hnodup : rels.Nodup)
    (hfresh : ∀ r ∈ rels, fs.linkOf (destRoot ++ r) = none)
    (hdisj : ∀ r1 ∈ rels, ∀ r2 ∈ rels, srcRoot ++ r1 ≠ destRoot ++ r2)
    (hok : copy_folder srcRoot destRoot rels fs = .ok fs') :
    (∀ q ino, fs.readFile q = some ino → fs'.readFile q = some ino) ∧
      ∀ r ∈ rels, ∃ ino, fs.readFile (srcRoot ++ r) = some ino ∧ ino.readBad = false ∧
        ∃ ino', fs'.readFile (destRoot ++ r) = some ino' ∧ ino'.content = ino.content := by
  induction rels generalizing fs with
  | nil =>
    unfold copy_folder at hok
    obtain rfl := Except.ok.inj hok
    exact ⟨fun q ino h => h, fun r hr => absurd hr (List.not_mem_nil r)⟩
  | cons r rest ih =>
    unfold copy_folder at hok
    cases hcf : copy_file fs (srcRoot ++ r) (destRoot ++ r) with
    | error e => rw [hcf] at hok; simp at hok
    | ok pr =>
      obtain ⟨fs1, n⟩ := pr
      rw [hcf] at hok
      dsimp only at hok
      obtain ⟨hwf1, -, hlfr, hrfr, ino, hsrc, hbad, -, ino1, hdest, hcont⟩ :=
        copy_file_spec hwf (hfresh r (List.mem_cons_self r rest)) hcf
      have hfresh1 : ∀ r' ∈ rest, fs1.linkOf (destRoot ++ r') = none := by
        intro r' hr'
        have hne : destRoot ++ r' ≠ destRoot ++ r := by
          intro h
          exact (List.Nodup.not_mem hnodup) (List.append_cancel_left h ▸ hr')
        rw [hlfr _ hne]
        exact hfresh r' (List.mem_cons_of_mem r hr')
      have hdisj1 : ∀ r1 ∈ rest, ∀ r2 ∈ rest, srcRoot ++ r1 ≠ destRoot ++ r2 :=
        fun r1 h1 r2 h2 =>
          hdisj r1 (List.mem_cons_of_mem r h1) r2 (List.mem_cons_of_mem r h2)
      obtain ⟨hpres, hcap⟩ := ih hwf1 (List.Nodup.of_cons hnodup) hfresh1 hdisj1 hok
      constructor
      · intro q ino0 hq
        have hqd : q ≠ destRoot ++ r := by
          intro h
          rw [h, readFile_none (hfresh r (List.mem_cons_self r rest))] at hq
          cases hq
        exact hpres q ino0 ((hrfr q hqd).trans hq)
      · intro r0 hr0
        rcases List.mem_cons.mp hr0 with rfl | hr0'
        · exact ⟨ino, hsrc, hbad, ino1, hpres _ ino1 hdest, hcont⟩
        · obtain ⟨ino2, hsrc2, hbad2, ino3, hdest3, hcont3⟩ := hcap r0 hr0'
          refine ⟨ino2, ?_, hbad2, ino3, hdest3, hcont3⟩
          have hne : srcRoot ++ r0 ≠ destRoot ++ r :=
            hdisj r0 (List.mem_cons_of_mem r hr0') r (List.mem_cons_self r rest)
          rw [← hrfr _ hne]
          exact hsrc2

/-- `backup_directory` aborts whenever any entry of the walk fails to
read. -/
theorem backup_directory_error_of_bad (digest : List Nat → Nat)
    (backups : List BackupInfo) (snap : Name) {srcs : List SrcFile} (fs : FS)
    (hbad : ∃ s ∈ srcs, s.readErr = true) :
    ∃ e, backup_directory digest backups snap srcs fs = .error e := by
  induction srcs generalizing fs with
  | nil =>
    obtain ⟨s, hs, -⟩ := hbad
    exact absurd hs (List.not_mem_nil s)
  | cons s rest ih =>
    unfold backup_directory
    cases hbf : backup_file digest backups s (snap :: s.rel) fs with
    | error e => exact ⟨e, rfl⟩
    | ok pr =>
      obtain ⟨fs1, info⟩ := pr
      obtain ⟨t, ht, htb⟩ := hbad
      rcases List.mem_cons.mp ht with rfl | ht'
      · exfalso
        unfold backup_file at hbf
        rw [htb] at hbf
        simp at hbf
      · obtain ⟨e, he⟩ := ih fs1 ⟨t, ht', htb⟩
        refine ⟨e, ?_⟩
        dsimp only
        rw [he]

/-- Claim C9: the snapshot walks are all-or-nothing.  A successful
`copy_folder` run implies every entry was readable and is captured in the
snapshot with identical content; if any entry is unreadable (missing,
permission denied, vanished) the walk returns an error instead of skipping
it, and `BackupManager::backup_directory` likewise aborts on any entry
whose read fails. -/
theorem C9_walk_all_or_nothing (srcRoot destRoot : Path) (rels : List Path) (fs : FS)
    (hwf : fs.wfB = true) (hnodup : rels.Nodup)
    (hfresh : ∀ r ∈ rels, fs.linkOf (destRoot ++ r) = none)
    (hdisj : ∀ r1 ∈ rels, ∀ r2 ∈ rels, srcRoot ++ r1 ≠ destRoot ++ r2) :
    (∀ fs', copy_folder srcRoot destRoot rels fs = .ok fs' →
      ∀ r ∈ rels, ∃ ino, fs.readFile (srcRoot ++ r) = some ino ∧ ino.readBad = false ∧
        ∃ ino', fs'.readFile (destRoot ++ r) = some ino' ∧ ino'.content = ino.content) ∧
      ((∃ r ∈ rels, ∀ ino, fs.readFile (srcRoot ++ r) = some ino → ino.readBad = true) →
        ∃ e, copy_folder srcRoot destRoot rels fs = .error e) ∧
      ∀ digest backups snap srcs fs0, (∃ s ∈ srcs, SrcFile.readErr s = true) →
        ∃ e, backup_directory digest backups snap srcs fs0 = .error e := by
  refine ⟨?_, ?_, ?_⟩
  · intro fs' hok
    exact (copy_folder_spec hwf hnodup hfresh hdisj hok).2
  · intro hb
    cases hres : copy_folder srcRoot destRoot rels fs with
    | error e => exact ⟨e, rfl⟩
    | ok fs' =>
      exfalso
      obtain ⟨r, hr, hrb⟩ := hb
      obtain ⟨ino, hsrc, hbad, -⟩ := (copy_folder_spec hwf hnodup hfresh hdisj hres).2 r hr
      rw [hrb ino hsrc] at hbad
      cases hbad
  · intro digest backups snap srcs fs0 hb
    exact backup_directory_error_of_bad digest backups snap fs0 hb

/-- Claim C9, witness: a one-file source tree captured into a fresh
destination, and an unreadable one-file tree aborting both walks. -/
theorem C9_witness :
    (∀ fs', copy_folder [[115]] [[100]] [[[97]]]
        ⟨[([[115], [97]], 0)], [(0, ⟨[3, 4], 7, false⟩)], 1⟩ = .ok fs' →
      ∀ r ∈ [[[97]]], ∃ ino,
        FS.readFile ⟨[([[115], [97]], 0)], [(0, ⟨[3, 4], 7, false⟩)], 1⟩ ([[115]] ++ r)
          = some ino ∧ ino.readBad = false ∧
        ∃ ino', fs'.readFile ([[100]] ++ r) = some ino' ∧ ino'.content = ino.content) ∧
      ((∃ r ∈ [[[97]]], ∀ ino,
        FS.readFile ⟨[([[115], [97]], 0)], [(0, ⟨[3, 4], 7, false⟩)], 1⟩ ([[115]] ++ r)
          = some ino → ino.readBad = true) →
        ∃ e, copy_folder [[115]] [[100]] [[[97]]]
          ⟨[([[115], [97]], 0)], [(0, ⟨[3, 4], 7, false⟩)], 1⟩ = .error e) ∧
      ∀ digest backups snap srcs fs0, (∃ s ∈ srcs, SrcFile.readErr s = true) →
        ∃ e, backup_directory digest backups snap srcs fs0 = .error e :=
  C9_walk_all_or_nothing [[115]] [[100]] [[[97]]]
    ⟨[([[115], [97]], 0)], [(0, ⟨[3, 4], 7, false⟩)], 1⟩
    (by decide) (by decide) (by decide) (by decide)

/-! ### Link fallback behaviour (claim C8) -/

/-- Claim C8, amended: the dhcopy primitive `copy_file` does fall back to a
full byte copy when hard-link creation fails and succeeds whenever the
source is readable (an error needs the link attempt AND the copy to fail);
but `BackupManager::backup_file` - the placement path of the Content Store
the claim covers - has no fallback: any hard-link failure is propagated as
the placement's error even though a byte copy would succeed. -/
theorem C8_link_fallback (fs : FS) (source dest : Path) (ino : Inode)
    (hsrc : fs.readFile source = some ino) (hgood : ino.readBad = false)
    (hdest : fs.linkOf dest = none ∨ ∃ inod, fs.readFile dest = some inod) :
    (∃ fs', copy_file fs source dest = .ok (fs', ino.content.length) ∧
      ∃ ino', fs'.readFile dest = some ino' ∧ ino'.content = ino.content) ∧
    ∀ digest backups src dest0 fs0 p e, SrcFile.readErr src = false →
      find_existing_file backups (calculate_checksum digest src.content) = some p →
      fs0.hardLink p dest0 = .error e →
      backup_file digest backups src dest0 fs0 = .error e := by
  constructor
  · unfold copy_file
    cases hL : fs.hardLink source dest with
    | ok fs1 =>
      obtain ⟨i, hdf, hsrc', rfl⟩ := hardLink_ok hL
      have hsd : source ≠ dest := fun h => by rw [h, hdf] at hsrc'; cases hsrc'
      have hii : fs.inodeOf i = some ino := (readFile_eq_inodeOf hsrc').symm.trans hsrc
      have hl1 : ∀ q, FS.linkOf ⟨(dest, i) :: fs.links, fs.inodes, fs.next⟩ q =
          if dest = q then some i else fs.linkOf q := fun q => linkOf_cons _ _ _ _ _ _
      have hXsrc : FS.linkOf ⟨(dest, i) :: fs.links, fs.inodes, fs.next⟩ source =
          some i := by
        rw [hl1 source, if_neg (fun h => hsd h.symm)]
        exact hsrc'
      have hXdest : FS.linkOf ⟨(dest, i) :: fs.links, fs.inodes, fs.next⟩ dest =
          some i := by
        rw [hl1 dest, if_pos rfl]
      refine ⟨⟨(dest, i) :: fs.links, fs.inodes, fs.next⟩, ?_, ino, ?_, rfl⟩
      · dsimp only
        rw [readFile_eq_inodeOf hXsrc,
          show FS.inodeOf ⟨(dest, i) :: fs.links, fs.inodes, fs.next⟩ i = some ino from hii]
        dsimp only
        rw [hgood]
        simp
      · rw [readFile_eq_inodeOf hXdest]
        exact hii
    | error e =>
      dsimp only
      rw [hsrc]
      dsimp only
      rw [hgood]
      simp only [Bool.false_eq_true, if_false]
      refine ⟨fs.copyTo ino.content dest, rfl, ?_⟩
      rcases hdest with hdf | ⟨inod, hinod⟩
      · rw [copyTo_fresh ino.content hdf]
        have hXdest : FS.linkOf ⟨(dest, fs.next) :: fs.links,
            (fs.next, ⟨ino.content, 0, false⟩) :: fs.inodes, fs.next + 1⟩ dest =
            some fs.next := by
          rw [linkOf_cons, if_pos rfl]
        refine ⟨⟨ino.content, 0, false⟩, ?_, rfl⟩
        rw [readFile_eq_inodeOf hXdest, show FS.inodeOf ⟨(dest, fs.next) :: fs.links,
          (fs.next, ⟨ino.content, 0, false⟩) :: fs.inodes, fs.next + 1⟩ fs.next =
          if fs.next = fs.next then some ⟨ino.content, 0, false⟩ else fs.inodeOf fs.next
          from lookupInodes_cons _ _ _ _, if_pos rfl]
      · obtain ⟨i0, hl0, hino0⟩ := readFile_some hinod
        unfold FS.copyTo
        rw [hl0]
        have hXdest : (fs.setInode i0 fun ino0 => { ino0 with content := ino.content }).linkOf
            dest = some i0 := by
          rw [setInode_linkOf]
          exact hl0
        refine ⟨{ inod with content := ino.content }, ?_, rfl⟩
        rw [readFile_eq_inodeOf hXdest, setInode_inodeOf, if_pos rfl, hino0]
        rfl
  · intro digest backups src dest0 fs0 p e hre hfind hlink
    unfold backup_file
    rw [hre]
    simp only [Bool.false_eq_true, if_false]
    rw [hfind]
    dsimp only
    rw [hlink]

/-- Claim C8, counterexample: a placement by `backup_file` whose dedup
hard-link attempt fails (the destination name already exists) returns the
link error even though a byte copy at the same spot would succeed - there
is no fallback in the Content Store placement path. -/
theorem C8_counterexample :
    backup_file natListKey
      [⟨⟨2025, 1, 1, 0, 0, 0⟩, [⟨[[112]], 1, 0, natListKey [0]⟩], 1⟩]
      ⟨[[97]], [0], 5, false⟩ [[113]]
      ⟨[([[112]], 0), ([[113]], 1)], [(0, ⟨[0], 0, false⟩), (1, ⟨[9], 0, false⟩)], 2⟩
      = .error .linkFailed ∧
    (copy_file ⟨[([[112]], 0), ([[113]], 1)],
      [(0, ⟨[0], 0, false⟩), (1, ⟨[9], 0, false⟩)], 2⟩ [[112]] [[113]]).isOk = true := by
  constructor
  · decide
  · decide

/-- Claim C8, witness: the amended theorem at a concrete store where the
hard link fails with EEXIST and the fallback copy succeeds. -/
theorem C8_witness :
    ((∃ fs', copy_file ⟨[([[112]], 0), ([[113]], 1)],
        [(0, ⟨[0], 0, false⟩), (1, ⟨[9], 0, false⟩)], 2⟩ [[112]] [[113]]
        = .ok (fs', (Inode.mk [0] 0 false).content.length) ∧
      ∃ ino', fs'.readFile [[113]] = some ino' ∧
        ino'.content = (Inode.mk [0] 0 false).content) ∧
    ∀ digest backups src dest0 fs0 p e, SrcFile.readErr src = false →
      find_existing_file backups (calculate_checksum digest src.content) = some p →
      fs0.hardLink p dest0 = .error e →
      backup_file digest backups src dest0 fs0 = .error e) :=
  C8_link_fallback ⟨[([[112]], 0), ([[113]], 1)],
      [(0, ⟨[0], 0, false⟩), (1, ⟨[9], 0, false⟩)], 2⟩ [[112]] [[113]] ⟨[0], 0, false⟩
    (by decide) (by decide) (Or.inr ⟨⟨[9], 0, false⟩, by decide⟩)

/-! ### Dedup walk machinery (claims C1, C3) -/

theorem coherent_file_iff (digest : List Nat → Nat) (fs : FS) (f : FileInfo) :
    (match fs.readFile f.path with
      | some ino => digest ino.content == f.checksum && !ino.readBad
      | none => false) = true ↔
      ∃ ino, fs.readFile f.path = some ino ∧ digest ino.content = f.checksum ∧
        ino.readBad = false := by
  cases h : fs.readFile f.path with
  | none => simp
  | some ino => simp [h]

theorem coherentB_iff (digest : List Nat → Nat) (backups : List BackupInfo) (fs : FS) :
    coherentB digest backups fs = true ↔
      ∀ b ∈ backups, ∀ f ∈ b.files, ∃ ino, fs.readFile f.path = some ino ∧
        digest ino.content = f.checksum ∧ ino.readBad = false := by
  unfold coherentB
  simp only [List.all_eq_true, coherent_file_iff]

theorem find_existing_file_mem {backups : List BackupInfo} {c : Nat} {p : Path}
    (h : find_existing_file backups c = some p) :
    ∃ b ∈ backups, ∃ f ∈ b.files, f.checksum = c ∧ f.path = p := by
  induction backups with
  | nil => cases h
  | cons b rest ih =>
    unfold find_existing_file at h
    cases hf : b.files.find? (fun f => f.checksum == c) with
    | some f =>
      rw [hf] at h
      obtain rfl := Option.some.inj h
      refine ⟨b, List.mem_cons_self b rest, f, List.mem_of_find?_eq_some hf, ?_, rfl⟩
      have := List.find?_some hf
      simpa using this
    | none =>
      rw [hf] at h
      obtain ⟨b0, hb0, f0, hf0, hc0, hp0⟩ := ih h
      exact ⟨b0, List.mem_cons_of_mem b hb0, f0, hf0, hc0, hp0⟩

theorem manage_space_go_noop (fuel maxSpace : Nat) (backups : List BackupInfo)
    (total : Nat) (fs : FS) (h : ¬ (maxSpace < total ∧ 1 < backups.length)) :
    manage_space_go fuel maxSpace backups total fs = .ok (backups, fs) := by
  cases fuel with
  | zero => rfl
  | succ fuel =>
    unfold manage_space_go
    rw [if_neg h]

theorem manage_space_of_le (maxSpace : Nat) (backups : List BackupInfo) (fs : FS)
    (h : (backups.map (·.total_size)).sum ≤ maxSpace) :
    manage_space maxSpace backups fs = .ok (backups, fs) :=
  manage_space_go_noop _ _ _ _ _ (by omega)

/-- Full behaviour of one successful `backup_file` placement at a fresh
destination, against a coherent catalog and a collision-free digest: the
placement succeeds, records the expected `FileInfo`, keeps the filesystem
well-formed, touches no other name, rewrites no content (it may rewrite the
mtime of an inode holding exactly this file's content - the hard-link
write-through), captures content and timestamp at the destination, and
hard-links to the first catalog path holding this checksum when there is
one, else allocates a fresh inode. -/
theorem backup_file_spec {digest : List Nat → Nat} (hinj : Function.Injective digest)
    {backups : List BackupInfo} {src : SrcFile} {dest : Path} {fs : FS}
    (hwf : fs.wfB = true)
    (hco : coherentB digest backups fs = true)
    (hfresh : fs.linkOf dest = none)
    (hre : src.readErr = false) :
    ∃ fs', backup_file digest backups src dest fs =
        .ok (fs', ⟨dest, src.content.length, src.mtime, digest src.content⟩) ∧
      fs'.wfB = true ∧ fs.next ≤ fs'.next ∧
      (∀ q, q ≠ dest → fs'.linkOf q = fs.linkOf q) ∧
      (∀ q ino, fs.readFile q = some ino → ∃ ino', fs'.readFile q = some ino' ∧
        ino'.content = ino.content ∧ ino'.readBad = ino.readBad ∧
        (ino'.mtime = ino.mtime ∨ (src.content = ino.content ∧ ino'.mtime = src.mtime))) ∧
      fs'.readFile dest = some ⟨src.content, src.mtime, false⟩ ∧
      (∀ p, find_existing_file backups (digest src.content) = some p →
        fs'.linkOf dest = fs.linkOf p) ∧
      (find_existing_file backups (digest src.content) = none →
        fs'.linkOf dest = some fs.next ∧ fs'.next = fs.next + 1) := by
  unfold backup_file
  rw [hre]
  simp only [Bool.false_eq_true, if_false]
  rw [calculate_checksum_eq]
  cases hfind : find_existing_file backups (digest src.content) with
  | some p =>
    dsimp only
    obtain ⟨b, hb, f, hf, hfc, hfp⟩ := find_existing_file_mem hfind
    obtain ⟨inoP, hrp, hdig, hbadP⟩ := (coherentB_iff digest backups fs).mp hco b hb f hf
    rw [hfp] at hrp
    obtain ⟨i, hlp, hip⟩ := readFile_some hrp
    have hcontent : inoP.content = src.content := hinj (by rw [hdig, hfc])
    have hHL : fs.hardLink p dest = .ok ⟨(dest, i) :: fs.links, fs.inodes, fs.next⟩ := by
      unfold FS.hardLink
      rw [hfresh, hlp]
    rw [hHL]
    dsimp only
    have hl1 : ∀ q, FS.linkOf ⟨(dest, i) :: fs.links, fs.inodes, fs.next⟩ q =
        if dest = q then some i else fs.linkOf q := fun q => linkOf_cons _ _ _ _ _ _
    have hX1dest : FS.linkOf ⟨(dest, i) :: fs.links, fs.inodes, fs.next⟩ dest = some i := by
      rw [hl1 dest, if_pos rfl]
    have hST : FS.setTimes ⟨(dest, i) :: fs.links, fs.inodes, fs.next⟩ dest src.mtime =
        .ok ((FS.setInode ⟨(dest, i) :: fs.links, fs.inodes, fs.next⟩ i
          fun ino => { ino with mtime := src.mtime })) := by
      unfold FS.setTimes
      rw [hX1dest]
    rw [hST]
    dsimp only
    have hiwf : i < fs.next := by
      have := (wfB_iff fs).mp hwf
      exact this.1 (p, i) (lookupLinks_mem hlp)
    have hX2link : ∀ q, (FS.setInode ⟨(dest, i) :: fs.links, fs.inodes, fs.next⟩ i
        fun ino => { ino with mtime := src.mtime }).linkOf q =
        if dest = q then some i else fs.linkOf q := by
      intro q
      rw [setInode_linkOf]
      exact hl1 q
    have hX2ino : ∀ j, (FS.setInode ⟨(dest, i) :: fs.links, fs.inodes, fs.next⟩ i
        fun ino => { ino with mtime := src.mtime }).inodeOf j =
        if j = i then (fs.inodeOf i).map (fun ino => { ino with mtime := src.mtime })
          else fs.inodeOf j := by
      intro j
      exact setInode_inodeOf _ _ _ _
    refine ⟨_, rfl, ?_, ?_, ?_, ?_, ?_, ?_, ?_⟩
    · apply setInode_wf
      rw [wfB_iff]
      dsimp only
      rw [wfB_iff] at hwf
      refine ⟨?_, hwf.2⟩
      intro pr hpr
      rcases List.mem_cons.mp hpr with h | h
      · rw [h]; exact hiwf
      · exact hwf.1 pr h
    · exact le_rfl
    · intro q hq
      rw [hX2link q, if_neg (fun h => hq h.symm)]
    · intro q ino hq
      obtain ⟨idq, hlq, hiq⟩ := readFile_some hq
      have hqd : q ≠ dest := fun h => by rw [h, hfresh] at hlq; cases hlq
      have hXq : (FS.setInode ⟨(dest, i) :: fs.links, fs.inodes, fs.next⟩ i
          fun ino => { ino with mtime := src.mtime }).linkOf q = some idq := by
        rw [hX2link q, if_neg (fun h => hqd h.symm)]
        exact hlq
      rw [readFile_eq_inodeOf hXq, hX2ino idq]
      by_cases hqi : idq = i
      · subst hqi
        obtain rfl : inoP = ino := by
          rw [hip] at hiq
          exact Option.some.inj hiq
        rw [if_pos rfl, hip]
        exact ⟨_, rfl, rfl, rfl, Or.inr ⟨hcontent.symm, rfl⟩⟩
      · rw [if_neg hqi, hiq]
        exact ⟨ino, rfl, rfl, rfl, Or.inl rfl⟩
    · have hXd : (FS.setInode ⟨(dest, i) :: fs.links, fs.inodes, fs.next⟩ i
          fun ino => { ino with mtime := src.mtime }).linkOf dest = some i := by
        rw [hX2link dest, if_pos rfl]
      rw [readFile_eq_inodeOf hXd, hX2ino i, if_pos rfl, hip, Option.map_some', hcontent,
        hbadP]
    · intro p0 hp0
      obtain rfl := Option.some.inj hp0
      rw [hX2link dest, if_pos rfl, hlp]
    · intro h
      simp at h
  | none =>
    dsimp only
    rw [copyTo_fresh src.content hfresh]
    have hl1 : ∀ q, FS.linkOf ⟨(dest, fs.next) :: fs.links,
        (fs.next, ⟨src.content, 0, false⟩) :: fs.inodes, fs.next + 1⟩ q =
        if dest = q then some fs.next else fs.linkOf q := fun q => linkOf_cons _ _ _ _ _ _
    have hi1 : ∀ j, FS.inodeOf ⟨(dest, fs.next) :: fs.links,
        (fs.next, ⟨src.content, 0, false⟩) :: fs.inodes, fs.next + 1⟩ j =
        if fs.next = j then some ⟨src.content, 0, false⟩ else fs.inodeOf j :=
      fun j => lookupInodes_cons _ _ _ _
    have hX1dest : FS.linkOf ⟨(dest, fs.next) :: fs.links,
        (fs.next, ⟨src.content, 0, false⟩) :: fs.inodes, fs.next + 1⟩ dest =
        some fs.next := by
      rw [hl1 dest, if_pos rfl]
    have hST : FS.setTimes ⟨(dest, fs.next) :: fs.links,
        (fs.next, ⟨src.content, 0, false⟩) :: fs.inodes, fs.next + 1⟩ dest src.mtime =
        .ok ((FS.setInode ⟨(dest, fs.next) :: fs.links,
          (fs.next, ⟨src.content, 0, false⟩) :: fs.inodes, fs.next + 1⟩ fs.next
          fun ino => { ino with mtime := src.mtime })) := by
      unfold FS.setTimes
      rw [hX1dest]
    rw [hST]
    dsimp only
    have hX2link : ∀ q, (FS.setInode ⟨(dest, fs.next) :: fs.links,
        (fs.next, ⟨src.content, 0, false⟩) :: fs.inodes, fs.next + 1⟩ fs.next
        fun ino => { ino with mtime := src.mtime }).linkOf q =
        if dest = q then some fs.next else fs.linkOf q := by
      intro q
      rw [setInode_linkOf]
      exact hl1 q
    have hX2ino : ∀ j, (FS.setInode ⟨(dest, fs.next) :: fs.links,
        (fs.next, ⟨src.content, 0, false⟩) :: fs.inodes, fs.next + 1⟩ fs.next
        fun ino => { ino with mtime := src.mtime }).inodeOf j =
        if j = fs.next then (FS.inodeOf ⟨(dest, fs.next) :: fs.links,
          (fs.next, ⟨src.content, 0, false⟩) :: fs.inodes, fs.next + 1⟩ fs.next).map
            (fun ino => { ino with mtime := src.mtime })
          else FS.inodeOf ⟨(dest, fs.next) :: fs.links,
            (fs.next, ⟨src.content, 0, false⟩) :: fs.inodes, fs.next + 1⟩ j := by
      intro j
      exact setInode_inodeOf _ _ _ _
    refine ⟨_, rfl, ?_, ?_, ?_, ?_, ?_, ?_, ?_⟩
    · apply setInode_wf
      rw [wfB_iff]
      dsimp only
      rw [wfB_iff] at hwf
      constructor
      · intro pr hpr
        rcases List.mem_cons.mp hpr with h | h
        · rw [h]; exact Nat.lt_succ_self _
        · have := hwf.1 pr h; omega
      · intro pr hpr
        rcases List.mem_cons.mp hpr with h | h
        · rw [h]; exact Nat.lt_succ_self _
        · have := hwf.2 pr h; omega
    · exact Nat.le_succ _
    · intro q hq
      rw [hX2link q, if_neg (fun h => hq h.symm)]
    · intro q ino hq
      obtain ⟨idq, hlq, hiq⟩ := readFile_some hq
      have hqd : q ≠ dest := fun h => by rw [h, hfresh] at hlq; cases hlq
      have hidq : idq < fs.next := by
        have := (wfB_iff fs).mp hwf
        exact this.1 (q, idq) (lookupLinks_mem hlq)
      have hXq : (FS.setInode ⟨(dest, fs.next) :: fs.links,
          (fs.next, ⟨src.content, 0, false⟩) :: fs.inodes, fs.next + 1⟩ fs.next
          fun ino => { ino with mtime := src.mtime }).linkOf q = some idq := by
        rw [hX2link q, if_neg (fun h => hqd h.symm)]
        exact hlq
      rw [readFile_eq_inodeOf hXq, hX2ino idq, if_neg (by omega), hi1 idq,
        if_neg (by omega), hiq]
      exact ⟨ino, rfl, rfl, rfl, Or.inl rfl⟩
    · have hXd : (FS.setInode ⟨(dest, fs.next) :: fs.links,
          (fs.next, ⟨src.content, 0, false⟩) :: fs.inodes, fs.next + 1⟩ fs.next
          fun ino => { ino with mtime := src.mtime }).linkOf dest = some fs.next := by
        rw [hX2link dest, if_pos rfl]
      rw [readFile_eq_inodeOf hXd, hX2ino fs.next, if_pos rfl, hi1 fs.next, if_pos rfl]
      rfl
    · intro p0 hp0
      simp at hp0
    · intro _
      refine ⟨?_, rfl⟩
      rw [hX2link dest, if_pos rfl]

/-- Full behaviour of a successful `backup_directory` walk: the records and
total are exactly the per-file map, names outside the new snapshot are
untouched, existing content is never rewritten (only the mtime of an inode
whose content equals some walked file's content can change - hard-link
write-through), every source file is captured with its content, its
timestamp surviving when no later same-content file of the run carries a
different one, and a file whose checksum the catalog already knows is
hard-linked to the recorded path. -/
theorem backup_directory_spec {digest : List Nat → Nat} (hinj : Function.Injective digest)
    {backups : List BackupInfo} {snap : Name} {srcs : List SrcFile} {fs : FS}
    (hwf : fs.wfB = true)
    (hco : coherentB digest backups fs = true)
    (hfresh : ∀ s ∈ srcs, fs.linkOf (snap :: s.rel) = none)
    (hre : ∀ s ∈ srcs, s.readErr = false)
    (hnodup : (srcs.map (·.rel)).Nodup) :
    ∃ fs', backup_directory digest backups snap srcs fs =
        .ok (fs',
          srcs.map (fun s => ⟨snap :: s.rel, s.content.length, s.mtime, digest s.content⟩),
          (srcs.map (fun s => s.content.length)).sum) ∧
      fs'.wfB = true ∧ fs.next ≤ fs'.next ∧
      (∀ q, (∀ s ∈ srcs, q ≠ snap :: s.rel) → fs'.linkOf q = fs.linkOf q) ∧
      (∀ q ino, fs.readFile q = some ino → ∃ ino', fs'.readFile q = some ino' ∧
        ino'.content = ino.content ∧ ino'.readBad = ino.readBad ∧
        (ino'.mtime = ino.mtime ∨
          ∃ s ∈ srcs, s.content = ino.content ∧ ino'.mtime = s.mtime)) ∧
      (∀ pre u post, srcs = pre ++ u :: post →
        ∃ ino, fs'.readFile (snap :: u.rel) = some ino ∧
        ino.content = u.content ∧ ino.readBad = false ∧
        ((∀ t ∈ post, t.content = u.content → t.mtime = u.mtime) → ino.mtime = u.mtime)) ∧
      ∀ s ∈ srcs, ∀ p, find_existing_file backups (digest s.content) = some p →
        fs'.linkOf (snap :: s.rel) = fs.linkOf p := by
  induction srcs generalizing fs with
  | nil =>
    refine ⟨fs, rfl, hwf, le_rfl, fun q _ => rfl, ?_, ?_, ?_⟩
    · intro q ino hq
      exact ⟨ino, hq, rfl, rfl, Or.inl rfl⟩
    · intro pre u post hsplit
      exact absurd hsplit (by simp)
    · intro s hs
      exact absurd hs (List.not_mem_nil s)
  | cons s rest ih =>
    obtain ⟨fs1, hbf, hwf1, hnext1, hlf1, hcf1, hcap1, hsome1, -⟩ :=
      backup_file_spec hinj hwf hco (hfresh s (List.mem_cons_self s rest))
        (hre s (List.mem_cons_self s rest))
    have hco1 : coherentB digest backups fs1 = true := by
      rw [coherentB_iff] at hco ⊢
      intro b hb f hf
      obtain ⟨ino, hr, hd, hbd⟩ := hco b hb f hf
      obtain ⟨ino', hr', hc', hb', -⟩ := hcf1 f.path ino hr
      exact ⟨ino', hr', by rw [hc', hd], by rw [hb', hbd]⟩
    have hns : (∀ x ∈ rest, ¬ x.rel = s.rel) ∧ (List.map (fun x => x.rel) rest).Nodup := by
      simpa using hnodup
    have hdests : ∀ t ∈ rest, snap :: t.rel ≠ snap :: s.rel := by
      intro t ht h
      have hrel : t.rel = s.rel := by
        injection h with h1 h2
      exact hns.1 t ht hrel
    have hfresh1 : ∀ t ∈ rest, fs1.linkOf (snap :: t.rel) = none := by
      intro t ht
      rw [hlf1 _ (hdests t ht)]
      exact hfresh t (List.mem_cons_of_mem s ht)
    have hre1 : ∀ t ∈ rest, t.readErr = false :=
      fun t ht => hre t (List.mem_cons_of_mem s ht)
    have hnodup1 : (List.map (fun x => x.rel) rest).Nodup := hns.2
    obtain ⟨fs2, hbd, hwf2, hnext2, hlf2, hcf2, hcap2, hded2⟩ :=
      ih hwf1 hco1 hfresh1 hre1 hnodup1
    refine ⟨fs2, ?_, hwf2, le_trans hnext1 hnext2, ?_, ?_, ?_, ?_⟩
    · unfold backup_directory
      rw [hbf]
      dsimp only
      rw [hbd]
      rfl
    · intro q hq
      rw [hlf2 q (fun t ht => hq t (List.mem_cons_of_mem s ht)),
        hlf1 q (hq s (List.mem_cons_self s rest))]
    · intro q ino hq
      obtain ⟨ino1, hr1, hc1, hb1, hm1⟩ := hcf1 q ino hq
      obtain ⟨ino2, hr2, hc2, hb2, hm2⟩ := hcf2 q ino1 hr1
      refine ⟨ino2, hr2, hc2.trans hc1, hb2.trans hb1, ?_⟩
      rcases hm2 with hm2 | ⟨t, ht, htc, htm⟩
      · rcases hm1 with hm1 | ⟨hsc, hsm⟩
        · exact Or.inl (hm2.trans hm1)
        · exact Or.inr ⟨s, List.mem_cons_self s rest, hsc, hm2.trans hsm⟩
      · exact Or.inr ⟨t, List.mem_cons_of_mem s ht, by rw [htc, hc1], htm⟩
    · intro pre u post hsplit
      cases pre with
      | nil =>
        rw [List.nil_append] at hsplit
        injection hsplit with h1 h2
        subst h1
        subst h2
        obtain ⟨ino2, hr2, hc2, hb2, hm2⟩ := hcf2 (snap :: s.rel) _ hcap1
        refine ⟨ino2, hr2, hc2, hb2, ?_⟩
        intro hprov
        rcases hm2 with hm2 | ⟨u0, hu0, huc0, hum0⟩
        · exact hm2
        · rw [hum0, hprov u0 hu0 huc0]
      | cons p pre' =>
        rw [List.cons_append] at hsplit
        injection hsplit with h1 h2
        exact hcap2 pre' u post h2
    · intro t ht p hp
      obtain ⟨b, hb, f, hf, -, hfp⟩ := find_existing_file_mem hp
      obtain ⟨inoP, hrp, -, -⟩ := (coherentB_iff digest backups fs).mp hco b hb f hf
      rw [hfp] at hrp
      obtain ⟨i, hlp, -⟩ := readFile_some hrp
      have hpd : p ≠ snap :: s.rel := by
        intro h
        rw [h, hfresh s (List.mem_cons_self s rest)] at hlp
        cases hlp
      rcases List.mem_cons.mp ht with rfl | ht'
      · rw [hlf2 _ (fun u hu => (hdests u hu).symm), hsome1 p hp]
      · rw [hded2 t ht' p hp, hlf1 p hpd]

/-- Claim C1, amended: after a successful `create_backup` run within the
space budget, against a coherent catalog, fresh snapshot directory name and
distinct relative paths, every source file is present at its relative path
inside the new snapshot with byte content identical to the source; its
modification timestamp equals the source file's whenever no file placed
LATER in the same run (the suffix after it in traversal order) carries the
same content with a different timestamp - hard-link placements share one
inode, so the timestamp set last wins (see the counterexample); earlier
same-content files never disturb it. -/
theorem C1_round_trip {digest : List Nat → Nat} (hinj : Function.Injective digest)
    (mgr : BackupManager) (now : DT) (srcs : List SrcFile) (fs : FS)
    (hwf : fs.wfB = true)
    (hco : coherentB digest mgr.backups fs = true)
    (hfresh : ∀ s ∈ srcs, fs.linkOf (snapshot_name now :: s.rel) = none)
    (hre : ∀ s ∈ srcs, s.readErr = false)
    (hnodup : (srcs.map (fun x => x.rel)).Nodup)
    (hbudget : (mgr.backups.map (·.total_size)).sum +
      (srcs.map (fun s => s.content.length)).sum ≤ mgr.max_space) :
    ∃ mgr' fs' info, create_backup digest mgr now srcs fs = .ok (mgr', fs', info) ∧
      mgr'.backups = mgr.backups ++ [info] ∧
      ∀ pre u post, srcs = pre ++ u :: post →
        ∃ ino, fs'.readFile (snapshot_name now :: u.rel) = some ino ∧
          ino.content = u.content ∧
          ((∀ t ∈ post, t.content = u.content → t.mtime = u.mtime) → ino.mtime = u.mtime) := by
  obtain ⟨fs1, hbd, hwf1, -, -, -, hcap, -⟩ :=
    backup_directory_spec hinj hwf hco hfresh hre hnodup
  have hsum : (((mgr.backups ++
      [(⟨now, srcs.map (fun s => ⟨snapshot_name now :: s.rel, s.content.length, s.mtime,
        digest s.content⟩), (srcs.map (fun s => s.content.length)).sum⟩ : BackupInfo)]).map
      (·.total_size)).sum) ≤ mgr.max_space := by
    rw [List.map_append, List.sum_append]
    simpa using hbudget
  have hms := manage_space_of_le mgr.max_space
    (mgr.backups ++
      [⟨now, srcs.map (fun s => ⟨snapshot_name now :: s.rel, s.content.length, s.mtime,
        digest s.content⟩), (srcs.map (fun s => s.content.length)).sum⟩]) fs1 hsum
  refine ⟨⟨mgr.max_space, mgr.backups ++
      [⟨now, srcs.map (fun s => ⟨snapshot_name now :: s.rel, s.content.length, s.mtime,
        digest s.content⟩), (srcs.map (fun s => s.content.length)).sum⟩]⟩, fs1,
    ⟨now, srcs.map (fun s => ⟨snapshot_name now :: s.rel, s.content.length, s.mtime,
      digest s.content⟩), (srcs.map (fun s => s.content.length)).sum⟩, ?_, rfl, ?_⟩
  · unfold create_backup
    dsimp only
    rw [hbd]
    dsimp only
    rw [hms]
  · intro pre u post hsplit
    obtain ⟨ino, hr, hc, -, hm⟩ := hcap pre u post hsplit
    exact ⟨ino, hr, hc, hm⟩

/-- Claim C1, witness: one run of one file into an empty backup root,
captured with content and timestamp. -/
theorem C1_witness :
    ∃ mgr' fs' info,
      create_backup natListKey ⟨100, []⟩ ⟨2025, 1, 1, 0, 0, 1⟩
        [⟨[[97]], [1, 2], 5, false⟩] ⟨[], [], 0⟩ = .ok (mgr', fs', info) ∧
      mgr'.backups = BackupManager.backups ⟨100, []⟩ ++ [info] ∧
      ∀ pre u post, [(⟨[[97]], [1, 2], 5, false⟩ : SrcFile)] = pre ++ u :: post →
        ∃ ino,
          fs'.readFile (snapshot_name ⟨2025, 1, 1, 0, 0, 1⟩ :: u.rel) = some ino ∧
          ino.content = u.content ∧
          ((∀ t ∈ post, t.content = u.content → t.mtime = u.mtime) → ino.mtime = u.mtime) :=
  C1_round_trip natListKey_injective ⟨100, []⟩ ⟨2025, 1, 1, 0, 0, 1⟩
    [⟨[[97]], [1, 2], 5, false⟩] ⟨[], [], 0⟩
    (by decide) (by decide) (by decide) (by decide) (by decide) (by decide)

/-- Claim C1, counterexample: two files of the second run share content
with a file of the first run; both are hard-linked onto the same inode, and
the second `set_file_times` overwrites the first, so the file at the first
path ends with mtime 9 although its source's mtime is 5 - the claim's
timestamp-preservation fails as stated. -/
theorem C1_counterexample :
    (match create_backup natListKey ⟨1000, []⟩ ⟨2025, 1, 1, 0, 0, 1⟩
        [⟨[[97]], [7], 1, false⟩] ⟨[], [], 0⟩ with
      | .ok (mgr1, fs1, _) =>
        match create_backup natListKey mgr1 ⟨2025, 1, 1, 0, 0, 2⟩
            [⟨[[98]], [7], 5, false⟩, ⟨[[99]], [7], 9, false⟩] fs1 with
        | .ok (_, fs2, _) =>
          (fs2.readFile (snapshot_name ⟨2025, 1, 1, 0, 0, 2⟩ :: [[98]])).map (·.mtime)
        | .error _ => none
      | .error _ => none) = some 9 ∧
      SrcFile.mtime ⟨[[98]], [7], 5, false⟩ = 5 := by
  constructor
  · decide
  · rfl

/-- Against an empty catalog every placement of a walk is a full copy: the
k-th file receives its own fresh inode `fs.next + k` - no two files of one
run ever share storage, whatever their contents. -/
theorem backup_directory_empty_inodes {digest : List Nat → Nat}
    (hinj : Function.Injective digest) {snap : Name} {srcs : List SrcFile} {fs : FS}
    (hwf : fs.wfB = true)
    (hfresh : ∀ s ∈ srcs, fs.linkOf (snap :: s.rel) = none)
    (hre : ∀ s ∈ srcs, s.readErr = false)
    (hnodup : (srcs.map (fun x => x.rel)).Nodup) :
    ∀ fs' infos total, backup_directory digest [] snap srcs fs = .ok (fs', infos, total) →
      ∀ k (hk : k < srcs.length),
        fs'.linkOf (snap :: (srcs.get ⟨k, hk⟩).rel) = some (fs.next + k) := by
  induction srcs generalizing fs with
  | nil =>
    intro fs' infos total hok k hk
    exact absurd hk (by simp)
  | cons s rest ih =>
    intro fs' infos total hok
    obtain ⟨fs1, hbf, hwf1, -, hlf1, -, -, -, hnone1⟩ :=
      backup_file_spec hinj hwf (rfl : coherentB digest [] fs = true)
        (hfresh s (List.mem_cons_self s rest)) (hre s (List.mem_cons_self s rest))
    obtain ⟨hdl, hnx⟩ := hnone1 rfl
    unfold backup_directory at hok
    rw [hbf] at hok
    dsimp only at hok
    have hns : (∀ x ∈ rest, ¬ x.rel = s.rel) ∧ (List.map (fun x => x.rel) rest).Nodup := by
      simpa using hnodup
    have hdests : ∀ t ∈ rest, snap :: t.rel ≠ snap :: s.rel := by
      intro t ht h
      have hrel : t.rel = s.rel := by
        injection h with h1 h2
      exact hns.1 t ht hrel
    have hfresh1 : ∀ t ∈ rest, fs1.linkOf (snap :: t.rel) = none := by
      intro t ht
      rw [hlf1 _ (hdests t ht)]
      exact hfresh t (List.mem_cons_of_mem s ht)
    have hre1 : ∀ t ∈ rest, t.readErr = false :=
      fun t ht => hre t (List.mem_cons_of_mem s ht)
    cases hrest : backup_directory digest [] snap rest fs1 with
    | error e =>
      rw [hrest] at hok
      simp at hok
    | ok pr =>
      obtain ⟨fs2, infos2, total2⟩ := pr
      rw [hrest] at hok
      dsimp only at hok
      have hfs2 : fs2 = fs' := congrArg (fun x => x.1) (Except.ok.inj hok)
      obtain ⟨fs2', hbd', -, -, hlf2, -, -, -⟩ :=
        backup_directory_spec hinj hwf1 (rfl : coherentB digest [] fs1 = true)
          hfresh1 hre1 hns.2
      have hfs2' : fs2' = fs2 :=
        congrArg (fun x => x.1) (Except.ok.inj (hbd'.symm.trans hrest))
      intro k hk
      subst hfs2
      cases k with
      | zero =>
        rw [show ((s :: rest).get ⟨0, hk⟩) = s from rfl, Nat.add_zero, ← hfs2',
          hlf2 _ (fun u hu => (hdests u hu).symm)]
        exact hdl
      | succ k =>
        have hk' : k < rest.length := by
          simpa using hk
        have := ih hwf1 hfresh1 hre1 hns.2 fs2 infos2 total2 hrest k hk'
        rw [show ((s :: rest).get ⟨k + 1, hk⟩) = rest.get ⟨k, hk'⟩ from rfl, this, hnx]
        congr 1
        omega

/-- Claim C3, amended: the catalog gains its new entries only when the run
completes (`mgr'.backups = mgr.backups ++ [info]`), so dedup sees only
previous runs.  A file whose content was stored by an earlier run of the
same manager is placed as a hard link onto the first recorded path with its
checksum - no second physical copy; but two identical files placed within
the SAME run are each fully copied onto distinct fresh inodes, and the
catalog may then hold several records per checksum. -/
theorem C3_dedup_links {digest : List Nat → Nat} (hinj : Function.Injective digest)
    (mgr : BackupManager) (now : DT) (srcs : List SrcFile) (fs : FS)
    (hwf : fs.wfB = true)
    (hco : coherentB digest mgr.backups fs = true)
    (hfresh : ∀ s ∈ srcs, fs.linkOf (snapshot_name now :: s.rel) = none)
    (hre : ∀ s ∈ srcs, s.readErr = false)
    (hnodup : (srcs.map (fun x => x.rel)).Nodup)
    (hbudget : (mgr.backups.map (·.total_size)).sum +
      (srcs.map (fun s => s.content.length)).sum ≤ mgr.max_space) :
    ∃ mgr' fs' info, create_backup digest mgr now srcs fs = .ok (mgr', fs', info) ∧
      mgr'.backups = mgr.backups ++ [info] ∧
      (∀ s ∈ srcs, ∀ p, find_existing_file mgr.backups (digest s.content) = some p →
        fs'.linkOf (snapshot_name now :: s.rel) = fs.linkOf p) ∧
      (mgr.backups = [] → ∀ k (hk : k < srcs.length),
        fs'.linkOf (snapshot_name now :: (srcs.get ⟨k, hk⟩).rel) = some (fs.next + k)) := by
  obtain ⟨fs1, hbd, hwf1, -, -, -, -, hded⟩ :=
    backup_directory_spec hinj hwf hco hfresh hre hnodup
  have hsum : (((mgr.backups ++
      [(⟨now, srcs.map (fun s => ⟨snapshot_name now :: s.rel, s.content.length, s.mtime,
        digest s.content⟩), (srcs.map (fun s => s.content.length)).sum⟩ : BackupInfo)]).map
      (·.total_size)).sum) ≤ mgr.max_space := by
    rw [List.map_append, List.sum_append]
    simpa using hbudget
  have hms := manage_space_of_le mgr.max_space
    (mgr.backups ++
      [⟨now, srcs.map (fun s => ⟨snapshot_name now :: s.rel, s.content.length, s.mtime,
        digest s.content⟩), (srcs.map (fun s => s.content.length)).sum⟩]) fs1 hsum
  refine ⟨⟨mgr.max_space, mgr.backups ++
      [⟨now, srcs.map (fun s => ⟨snapshot_name now :: s.rel, s.content.length, s.mtime,
        digest s.content⟩), (srcs.map (fun s => s.content.length)).sum⟩]⟩, fs1,
    ⟨now, srcs.map (fun s => ⟨snapshot_name now :: s.rel, s.content.length, s.mtime,
      digest s.content⟩), (srcs.map (fun s => s.content.length)).sum⟩, ?_, rfl, ?_, ?_⟩
  · unfold create_backup
    dsimp only
    rw [hbd]
    dsimp only
    rw [hms]
  · exact hded
  · intro hE
    rw [hE] at hbd
    exact backup_directory_empty_inodes hinj hwf hfresh hre hnodup _ _ _ hbd

/-- Claim C3, witness: a file whose content was stored by a previous run is
hard-linked onto the recorded path (same inode), and against an empty
catalog each file of a run receives its own fresh inode. -/
theorem C3_witness :
    ∃ mgr' fs' info,
      create_backup natListKey
        ⟨100, [⟨⟨2025, 1, 1, 0, 0, 0⟩, [⟨[[112]], 1, 0, natListKey [7]⟩], 1⟩]⟩
        ⟨2025, 1, 1, 0, 0, 1⟩ [⟨[[97]], [7], 5, false⟩]
        ⟨[([[112]], 0)], [(0, ⟨[7], 0, false⟩)], 1⟩ = .ok (mgr', fs', info) ∧
      mgr'.backups = BackupManager.backups
        ⟨100, [⟨⟨2025, 1, 1, 0, 0, 0⟩, [⟨[[112]], 1, 0, natListKey [7]⟩], 1⟩]⟩ ++ [info] ∧
      (∀ s ∈ [(⟨[[97]], [7], 5, false⟩ : SrcFile)], ∀ p,
        find_existing_file
          (BackupManager.backups
            ⟨100, [⟨⟨2025, 1, 1, 0, 0, 0⟩, [⟨[[112]], 1, 0, natListKey [7]⟩], 1⟩]⟩)
          (natListKey s.content) = some p →
        fs'.linkOf (snapshot_name ⟨2025, 1, 1, 0, 0, 1⟩ :: s.rel) =
          FS.linkOf ⟨[([[112]], 0)], [(0, ⟨[7], 0, false⟩)], 1⟩ p) ∧
      (BackupManager.backups
          ⟨100, [⟨⟨2025, 1, 1, 0, 0, 0⟩, [⟨[[112]], 1, 0, natListKey [7]⟩], 1⟩]⟩ = [] →
        ∀ k (hk : k < [(⟨[[97]], [7], 5, false⟩ : SrcFile)].length),
          fs'.linkOf (snapshot_name ⟨2025, 1, 1, 0, 0, 1⟩ ::
            ([(⟨[[97]], [7], 5, false⟩ : SrcFile)].get ⟨k, hk⟩).rel) =
            some (FS.next ⟨[([[112]], 0)], [(0, ⟨[7], 0, false⟩)], 1⟩ + k)) :=
  C3_dedup_links natListKey_injective
    ⟨100, [⟨⟨2025, 1, 1, 0, 0, 0⟩, [⟨[[112]], 1, 0, natListKey [7]⟩], 1⟩]⟩
    ⟨2025, 1, 1, 0, 0, 1⟩ [⟨[[97]], [7], 5, false⟩]
    ⟨[([[112]], 0)], [(0, ⟨[7], 0, false⟩)], 1⟩
    (by decide) (by decide) (by decide) (by decide) (by decide) (by decide)

/-- Claim C3, counterexample: two files with identical content placed
during the SAME run are both fully copied - they end on the two distinct
fresh inodes 0 and 1, not on shared storage - because `find_existing_file`
scans only completed runs and the catalog is updated at run end. -/
theorem C3_counterexample :
    (match create_backup natListKey ⟨1000, []⟩ ⟨2025, 1, 1, 0, 0, 1⟩
        [⟨[[98]], [7], 5, false⟩, ⟨[[99]], [7], 5, false⟩] ⟨[], [], 0⟩ with
      | .ok (_, fs1, _) =>
        (fs1.linkOf (snapshot_name ⟨2025, 1, 1, 0, 0, 1⟩ :: [[98]]),
          fs1.linkOf (snapshot_name ⟨2025, 1, 1, 0, 0, 1⟩ :: [[99]]))
      | .error _ => (none, none)) = (some 0, some 1) ∧ (0 : Nat) ≠ 1 := by
  constructor
  · decide
  · decide

/-! ### Space management defects (claims C2, C6) -/

/-- Claim C2, failing run: a catalog holding an older snapshot (created at
second 1) and a newer one (second 2), each of recorded size 5, against a
budget of 6.  `manage_space` (whose own comment says "Remove oldest
backups") pops the tail of the `Vec` - the snapshot pushed last, i.e. the
NEWEST - deletes its directory and keeps the oldest, so the remaining
snapshot is exactly the one the claim says must go. -/
theorem C2_newest_evicted :
    manage_space 6
      [⟨⟨2025, 1, 1, 0, 0, 1⟩, [⟨[[49], [102]], 5, 0, 0⟩], 5⟩,
        ⟨⟨2025, 1, 1, 0, 0, 2⟩, [⟨[[50], [102]], 5, 0, 0⟩], 5⟩]
      ⟨[([[49], [102]], 0), ([[50], [102]], 1)],
        [(0, ⟨[1], 0, false⟩), (1, ⟨[2], 0, false⟩)], 2⟩
      = .ok ([⟨⟨2025, 1, 1, 0, 0, 1⟩, [⟨[[49], [102]], 5, 0, 0⟩], 5⟩],
        ⟨[([[49], [102]], 0)], [(0, ⟨[1], 0, false⟩), (1, ⟨[2], 0, false⟩)], 2⟩) ∧
      DT.key ⟨2025, 1, 1, 0, 0, 1⟩ < DT.key ⟨2025, 1, 1, 0, 0, 2⟩ := by
  constructor
  · decide
  · decide

/-- Claim C6, failing run: two `create_backup` runs in the same clock
second share one snapshot directory name.  The space budget (2) is exceeded
after the second run (sizes 1 + 2), so `manage_space` pops the newest
`BackupInfo` and removes the directory above its first file - the SHARED
directory - deleting the retained first snapshot's stored file as well.
The surviving catalog entry's `FileInfo` no longer resolves to any stored
content: eviction removed a file a still-retained record points to, with no
re-copy and no reference counting. -/
theorem C6_retained_record_lost :
    (match create_backup natListKey ⟨2, []⟩ ⟨2025, 1, 1, 0, 0, 1⟩
        [⟨[[97]], [0], 3, false⟩] ⟨[], [], 0⟩ with
      | .ok (mgr1, fs1, _) =>
        match create_backup natListKey mgr1 ⟨2025, 1, 1, 0, 0, 1⟩
            [⟨[[98]], [1, 2], 4, false⟩] fs1 with
        | .ok (mgr2, fs2, _) =>
          match mgr2.backups with
          | [b] =>
            match b.files with
            | [f] => some (f.path, fs2.readFile f.path)
            | _ => none
          | _ => none
        | .error _ => none
      | .error _ => none)
      = some (snapshot_name ⟨2025, 1, 1, 0, 0, 1⟩ :: [[97]], none) := by
  decide

end DiskHog
